import Mathlib

/-!
# Scaled WebP decoding bridge (`signalwebp.cpp`)

A shallow embedding of `createBitmap` and `nativeDecodeBitmapScaled`.

* Single-precision arithmetic is modelled on exact rationals: every finite binary32
  value is a rational, and each operation is the exact operation followed by
  `f32Round` (round to nearest, ties to even, 24 significant bits, gradual underflow).
  For 32-bit integer inputs no intermediate value reaches the overflow threshold
  (`values_stay_finite`), so infinities and NaN need no representation.
* The JNI environment and the WebP codec are external: their answers are fields of
  `World`, and every call the bridge makes is recorded as an `Event`.
-/

set_option linter.unusedVariables false

namespace SignalWebp

/-! ## Single-precision arithmetic -/

/-- Exponent of the unit in the last place of the binary32 binade that contains `x`:
24 significant bits, and never below the subnormal spacing `2 ^ (-149)`. -/
def f32Exp (x : ℚ) : ℤ := max (Int.log 2 |x| - 23) (-149)

/-- Nearest integer, ties going to the even neighbour. -/
def roundHalfEven (y : ℚ) : ℤ :=
  if y - ⌊y⌋ < 1 / 2 then ⌊y⌋
  else if 1 / 2 < y - ⌊y⌋ then ⌊y⌋ + 1
  else if ⌊y⌋ % 2 = 0 then ⌊y⌋ else ⌊y⌋ + 1

/-- Rounding of an exact value to binary32 (round to nearest, ties to even). -/
def f32Round (x : ℚ) : ℚ := roundHalfEven (x / 2 ^ f32Exp x) * 2 ^ f32Exp x

/-- The conversion `static_cast<float>(n)` of an `int`. -/
def intToFloat (n : ℤ) : ℚ := f32Round n

/-- Single-precision product. -/
def f32Mul (a b : ℚ) : ℚ := f32Round (a * b)

/-- Single-precision quotient of finite operands; `none` stands for the non-finite
result of a division by zero. -/
def f32Div (a b : ℚ) : Option ℚ := if b = 0 then none else some (f32Round (a / b))

def INT_MIN : ℤ := -2147483648

def INT_MAX : ℤ := 2147483647

/-- Rounding toward zero. -/
def truncToZero (x : ℚ) : ℤ := if 0 ≤ x then ⌊x⌋ else ⌈x⌉

/-- The conversion `static_cast<int>(x)` of a `float`: truncation toward zero; the
result is undefined (`none`) when the truncated value is not an `int`. -/
def floatToInt (x : ℚ) : Option ℤ :=
  if INT_MIN ≤ truncToZero x ∧ truncToZero x ≤ INT_MAX then some (truncToZero x) else none

/-- Reduction of an integer to the 32-bit two's-complement range (`int` arithmetic). -/
def wrapInt32 (x : ℤ) : ℤ := (x + 2147483648) % 4294967296 - 2147483648

/-! ## The aspect-ratio computation (lines 40-51) -/

structure Ratios where
  hRatio : ℚ
  vRatio : ℚ
  deriving DecidableEq

/-- Result of lines 40-46 together with the divisor of every division executed. -/
structure RatioStep where
  ratios : Option Ratios
  divisors : List ℚ

/-- Lines 40-46: both ratios start at `1.0`; one of them is replaced by the quotient of
the smaller natural dimension by the larger one when the larger one is positive. -/
def ratioStep (width height : ℤ) : RatioStep :=
  if width ≥ height ∧ width > 0 then
    ⟨(f32Div (intToFloat height) (intToFloat width)).map fun v => ⟨1, v⟩, [intToFloat width]⟩
  else if width < height ∧ height > 0 then
    ⟨(f32Div (intToFloat width) (intToFloat height)).map fun r => ⟨r, 1⟩, [intToFloat height]⟩
  else
    ⟨some ⟨1, 1⟩, []⟩

def scaleRatios (width height : ℤ) : Option Ratios := (ratioStep width height).ratios

/-- Lines 50-51 for given ratios: the pair `(scaled_width, scaled_height)`; `none` when a
conversion to `int` has no defined result. -/
def targetOf (r : Ratios) (requestedWidth requestedHeight : ℤ) : Option (ℤ × ℤ) :=
  (floatToInt (f32Mul (intToFloat requestedWidth) r.hRatio)).bind fun sw =>
    (floatToInt (f32Mul (intToFloat requestedHeight) r.vRatio)).bind fun sh =>
      some (sw, sh)

/-- Lines 40-51: the pair `(scaled_width, scaled_height)` handed to the decoder. -/
def scaledTarget (width height requestedWidth requestedHeight : ℤ) : Option (ℤ × ℤ) :=
  (scaleRatios width height).bind fun r => targetOf r requestedWidth requestedHeight

/-- The target as the specification words it: the ratios and the products are exact,
and only the final value is rounded toward zero. -/
def specScaledTarget (w h W H : ℤ) : Option (ℤ × ℤ) :=
  if w ≥ h ∧ w > 0 then
    some (truncToZero ((W : ℚ) * 1), truncToZero ((H : ℚ) * ((h : ℚ) / (w : ℚ))))
  else if w < h ∧ h > 0 then
    some (truncToZero ((W : ℚ) * ((w : ℚ) / (h : ℚ))), truncToZero ((H : ℚ) * 1))
  else
    none

/-! ## The environment: JNI and the codec -/

/-- A non-null native address; `nullptr` is `none` of `Option Ptr`. -/
abbrev Ptr := ℕ

/-- A non-null JNI reference; `null` is `none` of `Option JObject`. -/
abbrev JObject := ℕ

inductive VP8StatusCode
  | VP8_STATUS_OK
  | VP8_STATUS_OUT_OF_MEMORY
  | VP8_STATUS_INVALID_PARAM
  | VP8_STATUS_BITSTREAM_ERROR
  | VP8_STATUS_UNSUPPORTED_FEATURE
  | VP8_STATUS_SUSPENDED
  | VP8_STATUS_USER_ABORT
  | VP8_STATUS_NOT_ENOUGH_DATA
  deriving DecidableEq

inductive LogPriority
  | ANDROID_LOG_VERBOSE
  | ANDROID_LOG_DEBUG
  | ANDROID_LOG_INFO
  | ANDROID_LOG_WARN
  | ANDROID_LOG_ERROR
  deriving DecidableEq

inductive WEBP_CSP_MODE
  | MODE_RGB
  | MODE_RGBA
  | MODE_BGR
  | MODE_BGRA
  | MODE_ARGB
  deriving DecidableEq

structure WebPBitstreamFeatures where
  width : ℤ
  height : ℤ

/-- The fields of `config.options` and `config.output.colorspace` the bridge sets.
The field `scaled` is the pair `(scaled_width, scaled_height)`. -/
structure WebPDecoderOptions where
  no_fancy_upsampling : ℤ
  use_scaling : ℤ
  scaled : Option (ℤ × ℤ)
  colorspace : WEBP_CSP_MODE
  deriving DecidableEq

/-- The fields of `config.output` the bridge reads after decoding. -/
structure WebPDecBuffer where
  width : ℤ
  height : ℤ
  rgba : Option Ptr

/-- One call across the JNI or codec boundary. -/
inductive Event
  | getByteArrayElements (data : JObject) (elems : Option Ptr)
  | getArrayLength (data : JObject)
  | releaseByteArrayElements (data : JObject) (elems : Option Ptr) (mode : ℤ)
  | androidLogWrite (prio : LogPriority) (tag text : String)
  | webPGetFeatures (buffer : Option Ptr) (length : ℤ)
  | webPInitDecoderConfig
  | webPDecode (buffer : Option Ptr) (length : ℤ) (options : WebPDecoderOptions)
  | webPFree (ptr : Option Ptr)
  | findClass (name : String)
  | newGlobalRef
  | getStaticFieldID (name sig : String)
  | getStaticMethodID (name sig : String)
  | newIntArray (length : ℤ)
  | setIntArrayRegion (start len : ℤ) (src : Ptr)
  | getStaticObjectField (className fieldName : String)
  | callCreateBitmap (colors : Option (List ℤ)) (offset stride width height : ℤ)
      (config : String)
  | deleteLocalRef
  deriving DecidableEq

/-- Answers of the environment to the calls of the bridge. -/
structure World where
  byteArrayElements : JObject → Option Ptr
  arrayLength : JObject → ℤ
  getFeatures : Option Ptr → ℤ → VP8StatusCode × WebPBitstreamFeatures
  initDecoderConfig : Bool
  decode : Option Ptr → ℤ → WebPDecoderOptions → VP8StatusCode × WebPDecBuffer
  word32 : Ptr → ℕ → ℤ
  bitmapCreate : Option (List ℤ) → ℤ → ℤ → ℤ → ℤ → String → Option JObject

/-- JNI `NewIntArray`: a zero-filled array, or `null` for a negative length. -/
def newIntArray (length : ℤ) : Option (List ℤ) :=
  if 0 ≤ length then some (List.replicate length.toNat 0) else none

/-- JNI `SetIntArrayRegion`: overwrite `len` elements from index `start` with the 32-bit
words stored at `src`; an out-of-bounds region leaves the array unchanged. -/
def setIntArrayRegion (world : World) (array : Option (List ℤ)) (start len : ℤ) (src : Ptr) :
    Option (List ℤ) :=
  array.map fun a =>
    if 0 ≤ start ∧ 0 ≤ len ∧ start + len ≤ a.length then
      a.take start.toNat ++ (List.range len.toNat).map (world.word32 src) ++
        a.drop (start + len).toNat
    else a

/-! ## The bridge -/

/-- Lines 6-9: the function-local statics, resolved on the first call only. -/
def resolveHandles : List Event :=
  [ .findClass "android/graphics/Bitmap$Config",
    .newGlobalRef,
    .getStaticFieldID "ARGB_8888" "Landroid/graphics/Bitmap$Config;",
    .findClass "android/graphics/Bitmap",
    .newGlobalRef,
    .getStaticMethodID "createBitmap"
      "([IIIIILandroid/graphics/Bitmap$Config;)Landroid/graphics/Bitmap;" ]

/-- Lines 5-19. Returns the calls made and the handle `Bitmap.createBitmap` answered.
The configuration object is named by the static field it is read from. -/
def createBitmap (world : World) (handlesCached : Bool) (width height : ℤ) (pixels : Ptr) :
    List Event × Option JObject :=
  let count := wrapInt32 (width * height)
  let intArray := setIntArrayRegion world (newIntArray count) 0 count pixels
  let argb8888Config := "ARGB_8888"
  ((if handlesCached then [] else resolveHandles) ++
    [ .newIntArray count,
      .setIntArrayRegion 0 count pixels,
      .getStaticObjectField "android/graphics/Bitmap$Config" argb8888Config,
      .callCreateBitmap intArray 0 width width height argb8888Config,
      .deleteLocalRef ],
   world.bitmapCreate intArray 0 width width height argb8888Config)

/-- What one call of the bridge did and returned, and whether the function-local statics
of `createBitmap` are resolved afterwards. -/
structure Outcome where
  trace : List Event
  result : Option JObject
  handlesCached : Bool

/-- Lines 21-70. -/
def nativeDecodeBitmapScaled (world : World) (handlesCached : Bool) (data : JObject)
    (requestedWidth requestedHeight : ℤ) : Outcome :=
  let javaBytes := world.byteArrayElements data
  let buffer := javaBytes
  let bufferLength := world.arrayLength data
  let release := Event.releaseByteArrayElements data javaBytes 0
  let t₀ : List Event :=
    [ .getByteArrayElements data javaBytes,
      .getArrayLength data,
      .webPGetFeatures buffer bufferLength ]
  let probe := world.getFeatures buffer bufferLength
  let features := probe.2
  if probe.1 ≠ .VP8_STATUS_OK then
    ⟨t₀ ++ [.androidLogWrite .ANDROID_LOG_WARN "WebpResourceDecoder" "GetFeatures", release],
      none, handlesCached⟩
  else
    let t₁ := t₀ ++ [.webPInitDecoderConfig]
    if world.initDecoderConfig = false then
      ⟨t₁ ++ [.androidLogWrite .ANDROID_LOG_WARN "WebpResourceDecoder" "Init decoder config",
          release],
        none, handlesCached⟩
    else
      let options : WebPDecoderOptions :=
        { no_fancy_upsampling := 1
          use_scaling := 1
          scaled := scaledTarget features.width features.height requestedWidth requestedHeight
          colorspace := .MODE_BGRA }
      let t₂ := t₁ ++ [.webPDecode buffer bufferLength options]
      let decoded := world.decode buffer bufferLength options
      if decoded.1 ≠ .VP8_STATUS_OK then
        ⟨t₂ ++ [.androidLogWrite .ANDROID_LOG_WARN "WebpResourceDecoder" "WebPDecode", release],
          none, handlesCached⟩
      else
        let pixels := decoded.2.rgba
        match pixels with
        | some p =>
          let made := createBitmap world handlesCached decoded.2.width decoded.2.height p
          ⟨t₂ ++ made.1 ++ [.webPFree pixels, release], made.2, true⟩
        | none =>
          ⟨t₂ ++ [.webPFree pixels, release], none, handlesCached⟩

/-! ## Classification of events -/

def Event.isAcquire : Event → Bool
  | .getByteArrayElements _ _ => true
  | _ => false

def Event.isRelease : Event → Bool
  | .releaseByteArrayElements _ _ _ => true
  | _ => false

/-- Codec calls that read the pinned input buffer. -/
def Event.readsInput : Event → Bool
  | .webPGetFeatures _ _ => true
  | .webPDecode _ _ _ => true
  | _ => false

def Event.isLog : Event → Bool
  | .androidLogWrite _ _ _ => true
  | _ => false

def Event.isWarning : Event → Bool
  | .androidLogWrite .ANDROID_LOG_WARN _ _ => true
  | _ => false

def Event.isInit : Event → Bool
  | .webPInitDecoderConfig => true
  | _ => false

def Event.isDecode : Event → Bool
  | .webPDecode _ _ _ => true
  | _ => false

def Event.isFree : Event → Bool
  | .webPFree _ => true
  | _ => false

/-- Calls made only inside `createBitmap`. -/
def Event.isBitmapWork : Event → Bool
  | .findClass _ => true
  | .newGlobalRef => true
  | .getStaticFieldID _ _ => true
  | .getStaticMethodID _ _ => true
  | .newIntArray _ => true
  | .setIntArrayRegion _ _ _ => true
  | .getStaticObjectField _ _ => true
  | .callCreateBitmap _ _ _ _ _ _ => true
  | .deleteLocalRef => true
  | _ => false

def Event.isCreateBitmapCall : Event → Bool
  | .callCreateBitmap _ _ _ _ _ _ => true
  | _ => false

/-- Calls that read the codec-owned pixel buffer at `p`. -/
def Event.readsPixels (p : Ptr) : Event → Bool
  | .setIntArrayRegion _ _ src => src = p
  | _ => false

/-- What a trace contains after its first release of a pinned input. -/
def afterRelease (trace : List Event) : List Event :=
  (trace.dropWhile fun e => !e.isRelease).tail

/-! ## Names for the intermediate values of one call -/

/-- Answer of `WebPGetFeatures` in a call on `data`. -/
def probeOf (world : World) (data : JObject) : VP8StatusCode × WebPBitstreamFeatures :=
  world.getFeatures (world.byteArrayElements data) (world.arrayLength data)

/-- Decoder options the bridge configures in a call on `data` (lines 48-52). -/
def optionsOf (world : World) (data : JObject) (requestedWidth requestedHeight : ℤ) :
    WebPDecoderOptions :=
  { no_fancy_upsampling := 1
    use_scaling := 1
    scaled := scaledTarget (probeOf world data).2.width (probeOf world data).2.height
      requestedWidth requestedHeight
    colorspace := .MODE_BGRA }

/-- Answer of `WebPDecode` in a call on `data`. -/
def decodedOf (world : World) (data : JObject) (requestedWidth requestedHeight : ℤ) :
    VP8StatusCode × WebPDecBuffer :=
  world.decode (world.byteArrayElements data) (world.arrayLength data)
    (optionsOf world data requestedWidth requestedHeight)

/-- The release of the pinned input of a call on `data` (lines 29, 36, 56, 67). -/
def releaseOf (world : World) (data : JObject) : Event :=
  .releaseByteArrayElements data (world.byteArrayElements data) 0

/-- The calls every path starts with (lines 22-27). -/
def prologueOf (world : World) (data : JObject) : List Event :=
  [ .getByteArrayElements data (world.byteArrayElements data),
    .getArrayLength data,
    .webPGetFeatures (world.byteArrayElements data) (world.arrayLength data) ]

/-- A warning written by the bridge. -/
def warningOf (text : String) : Event :=
  .androidLogWrite .ANDROID_LOG_WARN "WebpResourceDecoder" text

/-- A small environment with chosen codec answers: the input is pinned at address
`4096`, holds `32` bytes, has the natural size `4 x 2`, the word at index `i` of any
native buffer is `i`, and the platform answers the bitmap handle `7`. -/
def sampleWorld (probe : VP8StatusCode) (init : Bool) (status : VP8StatusCode)
    (output : WebPDecBuffer) : World :=
  { byteArrayElements := fun _ => some 4096
    arrayLength := fun _ => 32
    getFeatures := fun _ _ => (probe, ⟨4, 2⟩)
    initDecoderConfig := init
    decode := fun _ _ _ => (status, output)
    word32 := fun _ i => i
    bitmapCreate := fun _ _ _ _ _ _ => some 7 }

/-! ## Properties of the rounding -/

theorem roundHalfEven_intCast (n : ℤ) : roundHalfEven (n : ℚ) = n := by
  simp [roundHalfEven]

theorem roundHalfEven_ge_floor (y : ℚ) : ⌊y⌋ ≤ roundHalfEven y := by
  unfold roundHalfEven
  split_ifs <;> omega

theorem roundHalfEven_le_floor_succ (y : ℚ) : roundHalfEven y ≤ ⌊y⌋ + 1 := by
  unfold roundHalfEven
  split_ifs <;> omega

theorem roundHalfEven_mono {y₁ y₂ : ℚ} (h : y₁ ≤ y₂) : roundHalfEven y₁ ≤ roundHalfEven y₂ := by
  rcases (Int.floor_mono h).lt_or_eq with hlt | heq
  · have h1 := roundHalfEven_le_floor_succ y₁
    have h2 := roundHalfEven_ge_floor y₂
    omega
  · unfold roundHalfEven
    rw [← heq]
    have hfr : y₁ - ⌊y₁⌋ ≤ y₂ - ⌊y₁⌋ := by linarith
    split_ifs <;> first | omega | (exfalso; linarith)

theorem f32Round_zero : f32Round 0 = 0 := by
  simp [f32Round, roundHalfEven]

theorem f32Round_nonneg {x : ℚ} (hx : 0 ≤ x) : 0 ≤ f32Round x := by
  unfold f32Round
  have hp : (0 : ℚ) < 2 ^ f32Exp x := by positivity
  have h0 : roundHalfEven ((0 : ℤ) : ℚ) ≤ roundHalfEven (x / 2 ^ f32Exp x) :=
    roundHalfEven_mono (by push_cast; positivity)
  rw [roundHalfEven_intCast] at h0
  have : (0 : ℚ) ≤ (roundHalfEven (x / 2 ^ f32Exp x) : ℚ) := by exact_mod_cast h0
  positivity

theorem f32Exp_ge (x : ℚ) : Int.log 2 |x| - 23 ≤ f32Exp x := le_max_left _ _

theorem f32Exp_mono {x y : ℚ} (hx : 0 < x) (hxy : x ≤ y) : f32Exp x ≤ f32Exp y := by
  unfold f32Exp
  have h : Int.log 2 |x| ≤ Int.log 2 |y| :=
    Int.log_mono_right (abs_pos.2 hx.ne') (by rw [abs_of_pos hx, abs_of_pos (hx.trans_le hxy)]; exact hxy)
  exact max_le_max (by omega) le_rfl

theorem f32Round_mono {x y : ℚ} (hx : 0 ≤ x) (hxy : x ≤ y) : f32Round x ≤ f32Round y := by
  rcases hx.lt_or_eq with hpos | hzero
  swap
  · rw [← hzero, f32Round_zero]; exact f32Round_nonneg (hx.trans hxy)
  have hypos : 0 < y := hpos.trans_le hxy
  have hpx : (0 : ℚ) < 2 ^ f32Exp x := by positivity
  have hpy : (0 : ℚ) < 2 ^ f32Exp y := by positivity
  rcases (f32Exp_mono hpos hxy).lt_or_eq with hlt | heq
  · -- the binades differ: a power of two separates the two roundings
    have hxup : x < 2 ^ (f32Exp x + 24) := by
      have h1 : |x| < ((2 : ℕ) : ℚ) ^ (Int.log 2 |x| + 1) := Int.lt_zpow_succ_log_self (by norm_num) _
      rw [abs_of_pos hpos] at h1
      have h2 : ((2 : ℕ) : ℚ) ^ (Int.log 2 x + 1) ≤ 2 ^ (f32Exp x + 24) := by
        have := f32Exp_ge x
        rw [abs_of_pos hpos] at this
        simpa using zpow_le_zpow_right₀ (a := (2 : ℚ)) (by norm_num) (by omega : Int.log 2 x + 1 ≤ f32Exp x + 24)
      exact h1.trans_le h2
    have hylo : (2 : ℚ) ^ (f32Exp y + 23) ≤ y := by
      have hey : f32Exp y = Int.log 2 |y| - 23 := by
        have h149 : -149 ≤ f32Exp x := le_max_right _ _
        unfold f32Exp at hlt ⊢
        rw [max_eq_left]
        by_contra hc
        rw [max_eq_right (by omega)] at hlt
        omega
      have h1 : ((2 : ℕ) : ℚ) ^ Int.log 2 |y| ≤ |y| := Int.zpow_log_le_self (by norm_num) (abs_pos.2 hypos.ne')
      rw [abs_of_pos hypos] at h1 hey
      rw [hey]
      simpa using h1
    have hrx : roundHalfEven (x / 2 ^ f32Exp x) ≤ 2 ^ 24 := by
      have : roundHalfEven (x / 2 ^ f32Exp x) ≤ roundHalfEven (((2 ^ 24 : ℤ)) : ℚ) := by
        apply roundHalfEven_mono
        rw [div_le_iff₀ hpx]
        push_cast
        rw [zpow_add₀ (by norm_num : (2 : ℚ) ≠ 0)] at hxup
        have : (2 : ℚ) ^ (24 : ℤ) = 2 ^ 24 := by norm_num
        rw [this] at hxup
        linarith
      rwa [roundHalfEven_intCast] at this
    have hry : 2 ^ 23 ≤ roundHalfEven (y / 2 ^ f32Exp y) := by
      have : roundHalfEven (((2 ^ 23 : ℤ)) : ℚ) ≤ roundHalfEven (y / 2 ^ f32Exp y) := by
        apply roundHalfEven_mono
        rw [le_div_iff₀ hpy]
        push_cast
        rw [zpow_add₀ (by norm_num : (2 : ℚ) ≠ 0)] at hylo
        have : (2 : ℚ) ^ (23 : ℤ) = 2 ^ 23 := by norm_num
        rw [this] at hylo
        linarith
      rwa [roundHalfEven_intCast] at this
    unfold f32Round
    have hrx' : (roundHalfEven (x / 2 ^ f32Exp x) : ℚ) ≤ 2 ^ 24 := by exact_mod_cast hrx
    have hry' : (2 : ℚ) ^ 23 ≤ (roundHalfEven (y / 2 ^ f32Exp y) : ℚ) := by exact_mod_cast hry
    have hstep : (2 : ℚ) ^ 24 * 2 ^ f32Exp x ≤ 2 ^ 23 * 2 ^ f32Exp y := by
      have h1 : (2 : ℚ) ^ (f32Exp x + 1) ≤ 2 ^ f32Exp y :=
        zpow_le_zpow_right₀ (by norm_num) (by omega)
      rw [zpow_add₀ (by norm_num : (2 : ℚ) ≠ 0)] at h1
      norm_num at h1 ⊢
      linarith
    calc (roundHalfEven (x / 2 ^ f32Exp x) : ℚ) * 2 ^ f32Exp x
        ≤ 2 ^ 24 * 2 ^ f32Exp x := by gcongr
      _ ≤ 2 ^ 23 * 2 ^ f32Exp y := hstep
      _ ≤ roundHalfEven (y / 2 ^ f32Exp y) * 2 ^ f32Exp y := by gcongr
  · unfold f32Round
    rw [← heq]
    have : roundHalfEven (x / 2 ^ f32Exp x) ≤ roundHalfEven (y / 2 ^ f32Exp x) :=
      roundHalfEven_mono (by gcongr)
    have : (roundHalfEven (x / 2 ^ f32Exp x) : ℚ) ≤ roundHalfEven (y / 2 ^ f32Exp x) := by
      exact_mod_cast this
    gcongr
theorem f32Round_of_exact {x : ℚ} {m : ℤ} (h : x / 2 ^ f32Exp x = m) : f32Round x = x := by
  unfold f32Round
  rw [h, roundHalfEven_intCast, ← h]
  have hp : (2 : ℚ) ^ f32Exp x ≠ 0 := by positivity
  field_simp

theorem f32Round_intCast {n : ℤ} (hn : |n| ≤ 2 ^ 24) : f32Round (n : ℚ) = n := by
  rcases eq_or_ne n 0 with h0 | h0
  · subst h0; simpa using f32Round_zero
  have habs1 : (1 : ℤ) ≤ |n| := Int.one_le_abs h0
  have hq1 : (1 : ℚ) ≤ |(n : ℚ)| := by exact_mod_cast habs1
  have hq24 : |(n : ℚ)| ≤ 2 ^ 24 := by exact_mod_cast hn
  have hpos : 0 < |(n : ℚ)| := lt_of_lt_of_le one_pos hq1
  have hlog0 : 0 ≤ Int.log 2 |(n : ℚ)| :=
    (Int.zpow_le_iff_le_log (b := 2) (by norm_num) hpos).1 (by simpa using hq1)
  have hlog24 : Int.log 2 |(n : ℚ)| < 25 :=
    (Int.lt_zpow_iff_log_lt (b := 2) (by norm_num) hpos).1
      (by
        have : (2 : ℚ) ^ (25 : ℤ) = 2 ^ 25 := by norm_num
        simp only [Nat.cast_ofNat, this]
        exact lt_of_le_of_lt hq24 (by norm_num))
  have he : f32Exp (n : ℚ) = Int.log 2 |(n : ℚ)| - 23 := by
    unfold f32Exp; exact max_eq_left (by omega)
  rcases le_or_lt (f32Exp (n : ℚ)) 0 with hle | hgt
  · obtain ⟨j, hj⟩ := Int.eq_ofNat_of_zero_le (by omega : 0 ≤ -f32Exp (n : ℚ))
    apply f32Round_of_exact (m := n * 2 ^ j)
    have : f32Exp (n : ℚ) = -(j : ℤ) := by omega
    rw [this, zpow_neg, zpow_natCast]
    push_cast
    field_simp
  · have hlog : Int.log 2 |(n : ℚ)| = 24 := by omega
    have h1 : ((2 : ℕ) : ℚ) ^ Int.log 2 |(n : ℚ)| ≤ |(n : ℚ)| :=
      Int.zpow_log_le_self (by norm_num) hpos
    rw [hlog] at h1
    have h2 : (2 : ℚ) ^ 24 ≤ |(n : ℚ)| := by
      have : ((2 : ℕ) : ℚ) ^ (24 : ℤ) = 2 ^ 24 := by norm_num
      rwa [this] at h1
    have h3 : |n| = 2 ^ 24 := by
      have : (2 : ℤ) ^ 24 ≤ |n| := by exact_mod_cast h2
      omega
    have he1 : f32Exp (n : ℚ) = 1 := by omega
    rcases abs_eq (by norm_num : (0 : ℤ) ≤ 2 ^ 24) |>.1 h3 with hn' | hn'
    · apply f32Round_of_exact (m := 2 ^ 23)
      rw [he1, hn']; norm_num
    · apply f32Round_of_exact (m := -2 ^ 23)
      rw [he1, hn']; norm_num

theorem roundHalfEven_eq_of_lt {y : ℚ} {m : ℤ} (h₁ : (m : ℚ) - 1 / 2 < y) (h₂ : y < m + 1 / 2) :
    roundHalfEven y = m := by
  unfold roundHalfEven
  rcases le_or_lt (m : ℚ) y with hle | hlt
  · have hf : ⌊y⌋ = m := Int.floor_eq_iff.2 ⟨hle, by linarith⟩
    rw [hf, if_pos (by linarith)]
  · have hf : ⌊y⌋ = m - 1 := Int.floor_eq_iff.2 ⟨by push_cast; linarith, by push_cast; linarith⟩
    rw [hf]
    push_cast
    rw [if_neg (by linarith), if_pos (by linarith)]
    omega

theorem roundHalfEven_tie_even {m : ℤ} (hm : m % 2 = 0) : roundHalfEven ((m : ℚ) + 1 / 2) = m := by
  unfold roundHalfEven
  have hf : ⌊(m : ℚ) + 1 / 2⌋ = m := Int.floor_eq_iff.2 ⟨by linarith, by linarith⟩
  rw [hf, if_neg (by linarith), if_neg (by linarith), if_pos hm]

/-- The binade of a value fixes the exponent of its unit in the last place. -/
theorem f32Exp_eq {x : ℚ} {k : ℤ} (h₁ : 2 ^ k ≤ |x|) (h₂ : |x| < 2 ^ (k + 1)) :
    f32Exp x = max (k - 23) (-149) := by
  have hpos : 0 < |x| := lt_of_lt_of_le (by positivity) h₁
  have hlog : Int.log 2 |x| = k := by
    apply le_antisymm
    · have := (Int.lt_zpow_iff_log_lt (b := 2) (by norm_num) hpos (x := k + 1)).1
        (by simpa using h₂)
      omega
    · exact (Int.zpow_le_iff_le_log (b := 2) (by norm_num) hpos).1 (by simpa using h₁)
  unfold f32Exp
  rw [hlog]

/-- Evaluation of the rounding of a normal value from its binade `k` and the rounded
significand `m`. -/
theorem f32Round_eval {x : ℚ} (k m : ℤ) (h₁ : 2 ^ k ≤ |x|) (h₂ : |x| < 2 ^ (k + 1))
    (hk : -126 ≤ k) (hm : roundHalfEven (x / 2 ^ (k - 23)) = m) :
    f32Round x = m * 2 ^ (k - 23) := by
  have he : f32Exp x = k - 23 := by
    rw [f32Exp_eq h₁ h₂]; exact max_eq_left (by omega)
  unfold f32Round
  rw [he, hm]

/-! ## Conversions and operations on the values the bridge meets -/

theorem intToFloat_exact {n : ℤ} (hn : |n| ≤ 2 ^ 24) : intToFloat n = n :=
  f32Round_intCast hn

theorem intToFloat_nonneg {n : ℤ} (hn : 0 ≤ n) : 0 ≤ intToFloat n :=
  f32Round_nonneg (by exact_mod_cast hn)

theorem intToFloat_mono {m n : ℤ} (hm : 0 ≤ m) (hmn : m ≤ n) : intToFloat m ≤ intToFloat n :=
  f32Round_mono (by exact_mod_cast hm) (by exact_mod_cast hmn)

theorem one_le_intToFloat {n : ℤ} (hn : 0 < n) : 1 ≤ intToFloat n := by
  have h1 : intToFloat 1 = ((1 : ℤ) : ℚ) := intToFloat_exact (by norm_num)
  have h2 := intToFloat_mono (by norm_num : (0 : ℤ) ≤ 1) (by omega : (1 : ℤ) ≤ n)
  rw [h1] at h2
  exact_mod_cast h2

theorem intToFloat_pos {n : ℤ} (hn : 0 < n) : 0 < intToFloat n :=
  lt_of_lt_of_le one_pos (one_le_intToFloat hn)

theorem f32Round_one : f32Round 1 = 1 := by
  simpa using f32Round_intCast (n := 1) (by norm_num)

/-- A rounded value never crosses a small integer: rounding is monotone and integers of
magnitude at most `2 ^ 24` are binary32 values. -/
theorem f32Round_le_intCast {x : ℚ} {n : ℤ} (hx : 0 ≤ x) (hxn : x ≤ n) (hn : |n| ≤ 2 ^ 24) :
    f32Round x ≤ n := by
  have := f32Round_mono hx hxn
  rwa [f32Round_intCast hn] at this

theorem f32Div_eq {a b : ℚ} (hb : b ≠ 0) : f32Div a b = some (f32Round (a / b)) := by
  simp [f32Div, hb]

/-- The quotient of a smaller non-negative integer by a larger positive one rounds into
the unit interval. -/
theorem ratio_mem_unit {a b : ℤ} (ha : 0 ≤ a) (hab : a ≤ b) (hb : 0 < b) :
    0 ≤ f32Round (intToFloat a / intToFloat b) ∧ f32Round (intToFloat a / intToFloat b) ≤ 1 := by
  have hbpos := intToFloat_pos hb
  have hanon := intToFloat_nonneg ha
  have hle := intToFloat_mono ha hab
  have hq0 : 0 ≤ intToFloat a / intToFloat b := div_nonneg hanon hbpos.le
  have hq1 : intToFloat a / intToFloat b ≤ 1 := (div_le_one hbpos).2 hle
  refine ⟨f32Round_nonneg hq0, ?_⟩
  have := f32Round_mono hq0 hq1
  rwa [f32Round_one] at this

theorem truncToZero_intCast (n : ℤ) : truncToZero (n : ℚ) = n := by
  unfold truncToZero
  split_ifs <;> simp

theorem floatToInt_intCast {n : ℤ} (h₁ : INT_MIN ≤ n) (h₂ : n ≤ INT_MAX) :
    floatToInt (n : ℚ) = some n := by
  unfold floatToInt
  rw [truncToZero_intCast, if_pos ⟨h₁, h₂⟩]

/-- Conversion of a value between `0` and an `int` bound is defined and stays in between. -/
theorem floatToInt_of_mem {x : ℚ} {n : ℤ} (hx : 0 ≤ x) (hxn : x ≤ n) (hn : n ≤ INT_MAX) :
    ∃ s : ℤ, floatToInt x = some s ∧ 0 ≤ s ∧ s ≤ n := by
  have hfl0 : 0 ≤ ⌊x⌋ := Int.floor_nonneg.2 hx
  have hfln : ⌊x⌋ ≤ n := by
    have : (⌊x⌋ : ℚ) ≤ n := (Int.floor_le x).trans hxn
    exact_mod_cast this
  have ht : truncToZero x = ⌊x⌋ := by unfold truncToZero; rw [if_pos hx]
  refine ⟨⌊x⌋, ?_, hfl0, hfln⟩
  unfold floatToInt
  rw [ht, if_pos]
  unfold INT_MIN
  constructor <;> omega

/-- A request of magnitude at most `2 ^ 24` multiplied by the ratio `1.0` comes back
unchanged. -/
theorem scaled_by_one {n : ℤ} (hn : |n| ≤ 2 ^ 24) :
    floatToInt (f32Mul (intToFloat n) 1) = some n := by
  unfold f32Mul
  rw [intToFloat_exact hn, mul_one, f32Round_intCast hn]
  have := abs_le.1 hn
  apply floatToInt_intCast <;> simp only [INT_MIN, INT_MAX] <;> omega

/-- A request between `0` and `2 ^ 24` multiplied by a ratio of the unit interval is
converted to an `int` between `0` and the request. -/
theorem scaled_by_ratio {n : ℤ} {r : ℚ} (h₀ : 0 ≤ n) (hn : n ≤ 2 ^ 24) (hr₀ : 0 ≤ r)
    (hr₁ : r ≤ 1) :
    ∃ s : ℤ, floatToInt (f32Mul (intToFloat n) r) = some s ∧ 0 ≤ s ∧ s ≤ n := by
  have habs : |n| ≤ 2 ^ 24 := by rw [abs_of_nonneg h₀]; exact hn
  have hq : (0 : ℚ) ≤ n := by exact_mod_cast h₀
  unfold f32Mul
  rw [intToFloat_exact habs]
  have hp0 : (0 : ℚ) ≤ n * r := mul_nonneg hq hr₀
  have hp1 : (n : ℚ) * r ≤ n := by nlinarith
  exact floatToInt_of_mem (f32Round_nonneg hp0) (f32Round_le_intCast hp0 hp1 habs)
    (by simp only [INT_MAX]; omega)

/-- A product with the ratio `0.0` is converted to `0`. -/
theorem scaled_by_zero (a : ℚ) : floatToInt (f32Mul a 0) = some 0 := by
  unfold f32Mul
  rw [mul_zero, f32Round_zero]
  simpa using floatToInt_intCast (n := 0) (by simp [INT_MIN]) (by simp [INT_MAX])

/-! ## The ratio computation, branch by branch -/

theorem ratioStep_landscape {w h : ℤ} (hwh : w ≥ h) (hw : w > 0) :
    ratioStep w h = ⟨some ⟨1, f32Round (intToFloat h / intToFloat w)⟩, [intToFloat w]⟩ := by
  unfold ratioStep
  rw [if_pos ⟨hwh, hw⟩, f32Div_eq (intToFloat_pos hw).ne']
  rfl

theorem ratioStep_portrait {w h : ℤ} (hwh : w < h) (hh : h > 0) :
    ratioStep w h = ⟨some ⟨f32Round (intToFloat w / intToFloat h), 1⟩, [intToFloat h]⟩ := by
  unfold ratioStep
  rw [if_neg (by omega), if_pos ⟨hwh, hh⟩, f32Div_eq (intToFloat_pos hh).ne']
  rfl

theorem ratioStep_default {w h : ℤ} (hw : w ≤ 0) (hh : h ≤ 0) :
    ratioStep w h = ⟨some ⟨1, 1⟩, []⟩ := by
  unfold ratioStep
  rw [if_neg (by omega), if_neg (by omega)]

theorem scaleRatios_landscape {w h : ℤ} (hwh : w ≥ h) (hw : w > 0) :
    scaleRatios w h = some ⟨1, f32Round (intToFloat h / intToFloat w)⟩ := by
  unfold scaleRatios; rw [ratioStep_landscape hwh hw]

theorem scaleRatios_portrait {w h : ℤ} (hwh : w < h) (hh : h > 0) :
    scaleRatios w h = some ⟨f32Round (intToFloat w / intToFloat h), 1⟩ := by
  unfold scaleRatios; rw [ratioStep_portrait hwh hh]

theorem scaleRatios_default {w h : ℤ} (hw : w ≤ 0) (hh : h ≤ 0) :
    scaleRatios w h = some ⟨1, 1⟩ := by
  unfold scaleRatios; rw [ratioStep_default hw hh]

theorem scaleRatios_square {w : ℤ} (hw : 0 < w) : scaleRatios w w = some ⟨1, 1⟩ := by
  rw [scaleRatios_landscape le_rfl hw, div_self (intToFloat_pos hw).ne', f32Round_one]

theorem scaledTarget_of_ratios {w h : ℤ} {r : Ratios} (hr : scaleRatios w h = some r)
    (W H : ℤ) : scaledTarget w h W H = targetOf r W H := by
  unfold scaledTarget; rw [hr]; rfl

theorem targetOf_eq {r : Ratios} {W H sw sh : ℤ}
    (hw : floatToInt (f32Mul (intToFloat W) r.hRatio) = some sw)
    (hh : floatToInt (f32Mul (intToFloat H) r.vRatio) = some sh) :
    targetOf r W H = some (sw, sh) := by
  unfold targetOf; rw [hw, hh]; rfl

theorem intToFloat_zero : intToFloat 0 = 0 := by
  simpa using intToFloat_exact (n := 0) (by norm_num)

/-! ## The finite range is never left -/

theorem roundHalfEven_neg (y : ℚ) : roundHalfEven (-y) = -roundHalfEven y := by
  by_cases hint : ((⌊y⌋ : ℤ) : ℚ) = y
  · rw [← hint, ← Int.cast_neg, roundHalfEven_intCast, roundHalfEven_intCast]
  · have hlt : ((⌊y⌋ : ℤ) : ℚ) < y := lt_of_le_of_ne (Int.floor_le y) hint
    have hlt2 : y < ⌊y⌋ + 1 := Int.lt_floor_add_one y
    have hf : ⌊-y⌋ = -⌊y⌋ - 1 :=
      Int.floor_eq_iff.2 ⟨by push_cast; linarith, by push_cast; linarith⟩
    unfold roundHalfEven
    rw [hf]
    push_cast
    split_ifs <;> first | omega | (exfalso; linarith)

theorem f32Round_neg (x : ℚ) : f32Round (-x) = -f32Round x := by
  have he : f32Exp (-x) = f32Exp x := by unfold f32Exp; rw [abs_neg]
  unfold f32Round
  rw [he, neg_div, roundHalfEven_neg]
  push_cast
  ring

theorem f32Round_two_pow (k : ℕ) : f32Round (2 ^ k) = 2 ^ k := by
  have hpos : (0 : ℚ) < 2 ^ k := by positivity
  have he : f32Exp (2 ^ k) = max ((k : ℤ) - 23) (-149) :=
    f32Exp_eq (k := (k : ℤ)) (by rw [abs_of_pos hpos, zpow_natCast])
      (by
        rw [abs_of_pos hpos, zpow_add₀ (by norm_num : (2 : ℚ) ≠ 0), zpow_natCast]
        norm_num)
  have he2 : f32Exp (2 ^ k) = (k : ℤ) - 23 := by rw [he]; exact max_eq_left (by omega)
  apply f32Round_of_exact (m := 2 ^ 23)
  rw [he2, zpow_sub₀ (by norm_num : (2 : ℚ) ≠ 0), zpow_natCast]
  have : (2 : ℚ) ^ (23 : ℤ) = 2 ^ 23 := by norm_num
  rw [this]
  push_cast
  field_simp
  norm_num

/-- Rounding does not cross a power of two. -/
theorem abs_f32Round_le {x : ℚ} {k : ℕ} (h : |x| ≤ 2 ^ k) : |f32Round x| ≤ 2 ^ k := by
  obtain ⟨h₁, h₂⟩ := abs_le.1 h
  rcases le_or_lt 0 x with hx | hx
  · rw [abs_of_nonneg (f32Round_nonneg hx)]
    have := f32Round_mono hx h₂
    rwa [f32Round_two_pow] at this
  · have hnx : 0 ≤ -x := by linarith
    have h3 : f32Round (-x) ≤ 2 ^ k := by
      have := f32Round_mono hnx (by linarith : -x ≤ 2 ^ k)
      rwa [f32Round_two_pow] at this
    have h4 := f32Round_nonneg hnx
    rw [f32Round_neg] at h3 h4
    rw [abs_of_nonpos (by linarith)]
    exact h3

theorem abs_intToFloat_le {n : ℤ} (hn : |n| ≤ 2 ^ 31) : |intToFloat n| ≤ 2 ^ 31 :=
  abs_f32Round_le (k := 31) (by exact_mod_cast hn)

theorem abs_ratio_le {a b : ℤ} (ha : |a| ≤ 2 ^ 31) (hb : 0 < b) :
    |f32Round (intToFloat a / intToFloat b)| ≤ 2 ^ 31 := by
  apply abs_f32Round_le (k := 31)
  have h1 := one_le_intToFloat hb
  have h2 := abs_intToFloat_le ha
  rw [abs_div, abs_of_pos (lt_of_lt_of_le one_pos h1), div_le_iff₀ (lt_of_lt_of_le one_pos h1)]
  calc |intToFloat a| ≤ 2 ^ 31 := h2
    _ = 2 ^ 31 * 1 := (mul_one _).symm
    _ ≤ 2 ^ 31 * intToFloat b := by gcongr

theorem abs_f32Mul_le {a r : ℚ} (ha : |a| ≤ 2 ^ 31) (hr : |r| ≤ 2 ^ 31) :
    |f32Mul a r| ≤ 2 ^ 62 := by
  apply abs_f32Round_le (k := 62)
  rw [abs_mul]
  calc |a| * |r| ≤ 2 ^ 31 * 2 ^ 31 := by gcongr
    _ = 2 ^ 62 := by norm_num

/-- For 32-bit inputs every single-precision value met by lines 40-51 is finite: the
converted integers and the ratios have magnitude at most `2 ^ 31` and the products at
most `2 ^ 62`, below the binary32 overflow threshold `2 ^ 128`; the ratio computation
never divides by zero. -/
theorem values_stay_finite (w h W H : ℤ) (hw : |w| ≤ 2 ^ 31) (hh : |h| ≤ 2 ^ 31)
    (hW : |W| ≤ 2 ^ 31) (hH : |H| ≤ 2 ^ 31) :
    |intToFloat w| ≤ 2 ^ 31 ∧ |intToFloat h| ≤ 2 ^ 31 ∧
    |intToFloat W| ≤ 2 ^ 31 ∧ |intToFloat H| ≤ 2 ^ 31 ∧
    ∃ r : Ratios, scaleRatios w h = some r ∧ |r.hRatio| ≤ 2 ^ 31 ∧ |r.vRatio| ≤ 2 ^ 31 ∧
      |f32Mul (intToFloat W) r.hRatio| ≤ 2 ^ 62 ∧
      |f32Mul (intToFloat H) r.vRatio| ≤ 2 ^ 62 := by
  have hone : |(1 : ℚ)| ≤ 2 ^ 31 := by norm_num
  have key : ∀ r : Ratios, scaleRatios w h = some r → |r.hRatio| ≤ 2 ^ 31 →
      |r.vRatio| ≤ 2 ^ 31 →
      ∃ r : Ratios, scaleRatios w h = some r ∧ |r.hRatio| ≤ 2 ^ 31 ∧ |r.vRatio| ≤ 2 ^ 31 ∧
        |f32Mul (intToFloat W) r.hRatio| ≤ 2 ^ 62 ∧
        |f32Mul (intToFloat H) r.vRatio| ≤ 2 ^ 62 :=
    fun r hr h1 h2 => ⟨r, hr, h1, h2, abs_f32Mul_le (abs_intToFloat_le hW) h1,
      abs_f32Mul_le (abs_intToFloat_le hH) h2⟩
  refine ⟨abs_intToFloat_le hw, abs_intToFloat_le hh, abs_intToFloat_le hW,
    abs_intToFloat_le hH, ?_⟩
  by_cases c1 : w ≥ h ∧ w > 0
  · exact key _ (scaleRatios_landscape c1.1 c1.2) hone (abs_ratio_le hh c1.2)
  · by_cases c2 : w < h ∧ h > 0
    · exact key _ (scaleRatios_portrait c2.1 c2.2) (abs_ratio_le hw c2.2) hone
    · exact key _ (scaleRatios_default (by omega) (by omega)) hone hone

/-! ## Strict rounding below an integer -/

theorem roundHalfEven_le_pred {y : ℚ} {N : ℤ} (h : y < (N : ℚ) - 1 / 2) :
    roundHalfEven y ≤ N - 1 := by
  have hfl : ⌊y⌋ ≤ N - 1 := by
    have h1 : ⌊y⌋ < N := Int.floor_lt.2 (by linarith)
    omega
  rcases hfl.lt_or_eq with hlt | heq
  · have := roundHalfEven_le_floor_succ y
    omega
  · unfold roundHalfEven
    rw [if_pos (by rw [heq]; push_cast; linarith)]
    exact hfl

/-- The largest binary32 value below a power of two. -/
theorem f32Round_pred_two_pow (k : ℕ) :
    f32Round (2 ^ k * (1 - 1 / 2 ^ 24)) = 2 ^ k * (1 - 1 / 2 ^ 24) := by
  have hk : (0 : ℚ) < 2 ^ k := by positivity
  have hpos : (0 : ℚ) < 2 ^ k * (1 - 1 / 2 ^ 24) := by
    apply mul_pos hk; norm_num
  have hz : (2 : ℚ) ^ ((k : ℤ) - 1) = 2 ^ k / 2 := by
    rw [zpow_sub₀ (by norm_num : (2 : ℚ) ≠ 0), zpow_natCast]; norm_num
  have hz1 : (2 : ℚ) ^ ((k : ℤ) - 1 + 1) = 2 ^ k := by
    rw [sub_add_cancel, zpow_natCast]
  have he : f32Exp (2 ^ k * (1 - 1 / 2 ^ 24)) = max ((k : ℤ) - 1 - 23) (-149) :=
    f32Exp_eq (k := (k : ℤ) - 1)
      (by rw [abs_of_pos hpos, hz]; nlinarith)
      (by rw [abs_of_pos hpos, hz1]; nlinarith)
  have he2 : f32Exp (2 ^ k * (1 - 1 / 2 ^ 24)) = (k : ℤ) - 24 := by
    rw [he, max_eq_left (by omega)]; ring
  apply f32Round_of_exact (m := 2 ^ 24 - 1)
  rw [he2, zpow_sub₀ (by norm_num : (2 : ℚ) ≠ 0), zpow_natCast]
  have : (2 : ℚ) ^ (24 : ℤ) = 2 ^ 24 := by norm_num
  rw [this]
  push_cast
  field_simp
  norm_num

/-- A product of an integer `n ≤ 2 ^ 24` with a ratio of at most `1 - 2 ^ (-24)` rounds
strictly below `n`. -/
theorem f32Round_lt_intCast {x : ℚ} {n : ℤ} (hn : 0 < n) (hn₂ : n ≤ 2 ^ 24) (hx : 0 ≤ x)
    (hxn : x ≤ n * (1 - 1 / 2 ^ 24)) : f32Round x < n := by
  obtain ⟨m, rfl⟩ := Int.eq_ofNat_of_zero_le hn.le
  have hm : m ≠ 0 := by rintro rfl; simp at hn
  have hmq : (0 : ℚ) < (m : ℚ) := by exact_mod_cast Nat.pos_of_ne_zero hm
  have hlo : (2 : ℚ) ^ Nat.log 2 m ≤ m := by exact_mod_cast Nat.pow_log_le_self 2 hm
  have hhi : (m : ℚ) < 2 ^ (Nat.log 2 m + 1) := by
    exact_mod_cast Nat.lt_pow_succ_log_self (by norm_num : 1 < 2) m
  have hm24 : (m : ℚ) ≤ 2 ^ 24 := by exact_mod_cast hn₂
  generalize Nat.log 2 m = k at hlo hhi
  have hkpos : (0 : ℚ) < 2 ^ k := by positivity
  push_cast at hxn ⊢
  rcases hlo.lt_or_eq with hgt | heq
  swap
  · -- `n` is a power of two: the bound itself is a binary32 value
    rw [← heq] at hxn ⊢
    have := f32Round_mono hx hxn
    rw [f32Round_pred_two_pow] at this
    nlinarith
  rcases lt_or_le x (2 ^ k) with hxk | hxk
  · have := f32Round_mono hx hxk.le
    rw [f32Round_two_pow] at this
    linarith
  -- `x` and `n` share the binade of `2 ^ k`, and `k ≤ 23`
  have hk23 : k ≤ 23 := by
    by_contra hc
    have h24 : 24 ≤ k := by omega
    have : (2 : ℚ) ^ 24 ≤ 2 ^ k := pow_le_pow_right₀ (by norm_num) h24
    linarith
  obtain ⟨j, hj⟩ := Nat.exists_eq_add_of_le hk23
  have hjpos : (0 : ℚ) < 2 ^ j := by positivity
  have h23 : (2 : ℚ) ^ 23 = 2 ^ k * 2 ^ j := by rw [hj, pow_add]
  have hxlt : x < m := by nlinarith
  have hxpos : 0 < x := lt_of_lt_of_le hkpos hxk
  have he : f32Exp x = (k : ℤ) - 23 := by
    rw [f32Exp_eq (k := (k : ℤ)) (by rw [abs_of_pos hxpos, zpow_natCast]; exact hxk)
      (by
        rw [abs_of_pos hxpos]
        have : (2 : ℚ) ^ ((k : ℤ) + 1) = 2 ^ (k + 1) := by
          rw [← zpow_natCast]; push_cast; rfl
        rw [this]; linarith)]
    exact max_eq_left (by omega)
  have hpw : (2 : ℚ) ^ ((k : ℤ) - 23) = 1 / 2 ^ j := by
    rw [zpow_sub₀ (by norm_num : (2 : ℚ) ≠ 0), zpow_natCast]
    have : (2 : ℚ) ^ (23 : ℤ) = 2 ^ 23 := by norm_num
    rw [this, h23]
    field_simp
  have hy : x / (1 / 2 ^ j) = x * 2 ^ j := by field_simp
  have hr : roundHalfEven (x * 2 ^ j) ≤ (m : ℤ) * 2 ^ j - 1 := by
    apply roundHalfEven_le_pred
    push_cast
    have h1 : x * 2 ^ j ≤ m * (1 - 1 / 2 ^ 24) * 2 ^ j := by gcongr
    have h2 : (2 : ℚ) ^ 23 < m * 2 ^ j := by rw [h23]; gcongr
    have h24 : (2 : ℚ) ^ 24 = 2 * 2 ^ 23 := by norm_num
    have h3 : (m : ℚ) * (1 - 1 / 2 ^ 24) * 2 ^ j = m * 2 ^ j - m * 2 ^ j / 2 ^ 24 := by ring
    have h4 : (1 : ℚ) / 2 < m * 2 ^ j / 2 ^ 24 := by
      rw [lt_div_iff₀ (by positivity), h24]; linarith
    linarith
  unfold f32Round
  rw [he, hpw, hy]
  have hrq : (roundHalfEven (x * 2 ^ j) : ℚ) ≤ (m : ℚ) * 2 ^ j - 1 := by exact_mod_cast hr
  have : (roundHalfEven (x * 2 ^ j) : ℚ) * (1 / 2 ^ j) ≤ ((m : ℚ) * 2 ^ j - 1) * (1 / 2 ^ j) := by
    gcongr
  have h5 : ((m : ℚ) * 2 ^ j - 1) * (1 / 2 ^ j) = m - 1 / 2 ^ j := by field_simp
  have h6 : (0 : ℚ) < 1 / 2 ^ j := by positivity
  linarith

theorem floatToInt_floor {x : ℚ} {n : ℤ} (hx : 0 ≤ x) (hxn : x ≤ n) (hn : n ≤ INT_MAX) :
    floatToInt x = some ⌊x⌋ := by
  have hfl0 : 0 ≤ ⌊x⌋ := Int.floor_nonneg.2 hx
  have hfln : ⌊x⌋ ≤ n := by
    have : (⌊x⌋ : ℚ) ≤ n := (Int.floor_le x).trans hxn
    exact_mod_cast this
  have ht : truncToZero x = ⌊x⌋ := by unfold truncToZero; rw [if_pos hx]
  unfold floatToInt
  rw [ht, if_pos]
  unfold INT_MIN
  constructor <;> omega

/-- The request on the shorter axis of a non-square size, multiplied by the ratio of the
shorter to the longer natural dimension, is converted to an `int` strictly below the
request. -/
theorem scaled_shorter_lt {a b : ℤ} (ha : 0 < a) (hab : a < b) (hb : b ≤ 2 ^ 24) :
    ∃ s : ℤ, floatToInt (f32Mul (intToFloat a) (f32Round (intToFloat a / intToFloat b))) =
      some s ∧ 0 ≤ s ∧ s < a := by
  have haa : |a| ≤ 2 ^ 24 := by rw [abs_of_pos ha]; omega
  have hbb : |b| ≤ 2 ^ 24 := by rw [abs_of_pos (by omega)]; exact hb
  have haq : (0 : ℚ) < a := by exact_mod_cast ha
  have hbq : (0 : ℚ) < b := by exact_mod_cast (by omega : 0 < b)
  have hab1 : (a : ℚ) + 1 ≤ b := by exact_mod_cast (by omega : a + 1 ≤ b)
  have hb24 : (b : ℚ) ≤ 2 ^ 24 := by exact_mod_cast hb
  rw [intToFloat_exact haa, intToFloat_exact hbb]
  have hq0 : (0 : ℚ) ≤ a / b := by positivity
  have hq1 : (a : ℚ) / b ≤ 2 ^ 0 * (1 - 1 / 2 ^ 24) := by
    rw [div_le_iff₀ hbq]
    nlinarith
  have hr0 := f32Round_nonneg hq0
  have hr1 := f32Round_mono hq0 hq1
  rw [f32Round_pred_two_pow] at hr1
  have hx0 : (0 : ℚ) ≤ a * f32Round (a / b) := mul_nonneg haq.le hr0
  have hx1 : (a : ℚ) * f32Round (a / b) ≤ a * (1 - 1 / 2 ^ 24) := by
    have : f32Round ((a : ℚ) / b) ≤ 1 - 1 / 2 ^ 24 := by simpa using hr1
    gcongr
  have hlt := f32Round_lt_intCast ha (by omega) hx0 hx1
  have h0 := f32Round_nonneg hx0
  unfold f32Mul
  refine ⟨⌊f32Round ((a : ℚ) * f32Round (a / b))⌋,
    floatToInt_floor h0 hlt.le (by unfold INT_MAX; omega), Int.floor_nonneg.2 h0, ?_⟩
  exact Int.floor_lt.2 hlt

/-! ## Claims about the scaled target -/

/-- C10: for every natural size with non-negative width and height, each division the
ratio computation executes has a strictly positive divisor, both ratios lie in `[0, 1]`,
and for every request with `0 ≤ W, H ≤ 2 ^ 24` the scaled target is defined and lies
between `0` and the request on each axis. -/
theorem target_within_request (w h : ℤ) (hw : 0 ≤ w) (hh : 0 ≤ h) :
    (∀ d ∈ (ratioStep w h).divisors, 0 < d) ∧
    ∃ r : Ratios, scaleRatios w h = some r ∧
      0 ≤ r.hRatio ∧ r.hRatio ≤ 1 ∧ 0 ≤ r.vRatio ∧ r.vRatio ≤ 1 ∧
      ∀ W H : ℤ, 0 ≤ W → W ≤ 2 ^ 24 → 0 ≤ H → H ≤ 2 ^ 24 →
        ∃ sw sh : ℤ, scaledTarget w h W H = some (sw, sh) ∧
          0 ≤ sw ∧ sw ≤ W ∧ 0 ≤ sh ∧ sh ≤ H := by
  -- once the ratios are known to lie in the unit interval, the target follows
  have key : ∀ r : Ratios, scaleRatios w h = some r → 0 ≤ r.hRatio → r.hRatio ≤ 1 →
      0 ≤ r.vRatio → r.vRatio ≤ 1 →
      ∀ W H : ℤ, 0 ≤ W → W ≤ 2 ^ 24 → 0 ≤ H → H ≤ 2 ^ 24 →
        ∃ sw sh : ℤ, scaledTarget w h W H = some (sw, sh) ∧
          0 ≤ sw ∧ sw ≤ W ∧ 0 ≤ sh ∧ sh ≤ H := by
    intro r hr h1 h2 h3 h4 W H hW0 hW hH0 hH
    obtain ⟨sw, hsw, hsw0, hswW⟩ := scaled_by_ratio hW0 hW h1 h2
    obtain ⟨sh, hsh, hsh0, hshH⟩ := scaled_by_ratio hH0 hH h3 h4
    exact ⟨sw, sh, by rw [scaledTarget_of_ratios hr, targetOf_eq hsw hsh],
      hsw0, hswW, hsh0, hshH⟩
  by_cases c1 : w ≥ h ∧ w > 0
  · obtain ⟨hwh, hwpos⟩ := c1
    have hv := ratio_mem_unit hh hwh hwpos
    refine ⟨?_, _, scaleRatios_landscape hwh hwpos, zero_le_one, le_rfl, hv.1, hv.2,
      key _ (scaleRatios_landscape hwh hwpos) zero_le_one le_rfl hv.1 hv.2⟩
    rw [ratioStep_landscape hwh hwpos]
    intro d hd
    rw [List.mem_singleton.1 hd]
    exact intToFloat_pos hwpos
  · by_cases c2 : w < h ∧ h > 0
    · obtain ⟨hwh, hhpos⟩ := c2
      have hv := ratio_mem_unit hw hwh.le hhpos
      refine ⟨?_, _, scaleRatios_portrait hwh hhpos, hv.1, hv.2, zero_le_one, le_rfl,
        key _ (scaleRatios_portrait hwh hhpos) hv.1 hv.2 zero_le_one le_rfl⟩
      rw [ratioStep_portrait hwh hhpos]
      intro d hd
      rw [List.mem_singleton.1 hd]
      exact intToFloat_pos hhpos
    · have hw0 : w ≤ 0 := by omega
      have hh0 : h ≤ 0 := by omega
      refine ⟨?_, _, scaleRatios_default hw0 hh0, zero_le_one, le_rfl, zero_le_one, le_rfl,
        key _ (scaleRatios_default hw0 hh0) zero_le_one le_rfl zero_le_one le_rfl⟩
      rw [ratioStep_default hw0 hh0]
      intro d hd
      simp at hd

/-- Witness of `target_within_request` at the natural size `4 x 2` and the request
`8 x 8`. -/
theorem target_within_request_witness :
    (0 : ℤ) ≤ 4 ∧ (0 : ℤ) ≤ 2 ∧
      ∃ sw sh : ℤ, scaledTarget 4 2 8 8 = some (sw, sh) ∧ 0 ≤ sw ∧ sw ≤ 8 ∧ 0 ≤ sh ∧ sh ≤ 8 := by
  refine ⟨by norm_num, by norm_num, ?_⟩
  obtain ⟨-, r, -, -, -, -, -, hall⟩ := target_within_request 4 2 (by norm_num) (by norm_num)
  exact hall 8 8 (by norm_num) (by norm_num) (by norm_num) (by norm_num)

/-- C8, amended: for every square natural size (`width = height > 0`) both ratios are
`1.0`, and for every request with `0 ≤ W, H ≤ 2 ^ 24` the scaled target is exactly
`(W, H)`. -/
theorem square_target_eq_request (w W H : ℤ) (hw : 0 < w) (hW₀ : 0 ≤ W) (hW : W ≤ 2 ^ 24)
    (hH₀ : 0 ≤ H) (hH : H ≤ 2 ^ 24) :
    scaleRatios w w = some ⟨1, 1⟩ ∧ scaledTarget w w W H = some (W, H) := by
  refine ⟨scaleRatios_square hw, ?_⟩
  rw [scaledTarget_of_ratios (scaleRatios_square hw)]
  exact targetOf_eq (scaled_by_one (by rw [abs_of_nonneg hW₀]; exact hW))
    (scaled_by_one (by rw [abs_of_nonneg hH₀]; exact hH))

/-- Witness of `square_target_eq_request` at the natural size `5 x 5`, request `7 x 3`. -/
theorem square_target_eq_request_witness :
    (0 : ℤ) < 5 ∧ (0 : ℤ) ≤ 7 ∧ (7 : ℤ) ≤ 2 ^ 24 ∧ (0 : ℤ) ≤ 3 ∧ (3 : ℤ) ≤ 2 ^ 24 ∧
      scaleRatios 5 5 = some ⟨1, 1⟩ ∧ scaledTarget 5 5 7 3 = some (7, 3) :=
  ⟨by norm_num, by norm_num, by norm_num, by norm_num, by norm_num,
    square_target_eq_request 5 7 3 (by norm_num) (by norm_num) (by norm_num) (by norm_num)
      (by norm_num)⟩

/-- C8 as stated fails above `2 ^ 24`: for the square natural size `1 x 1` and the
request `16777217 x 1` (a non-negative 32-bit request) the scaled width is `16777216`,
because `16777217` is not a binary32 value. -/
theorem square_request_not_preserved :
    (0 : ℤ) < 1 ∧ (0 : ℤ) ≤ 16777217 ∧ (16777217 : ℤ) ≤ INT_MAX ∧
      scaledTarget 1 1 16777217 1 = some (16777216, 1) ∧
      scaledTarget 1 1 16777217 1 ≠ some (16777217, 1) := by
  have hfl : intToFloat 16777217 = 16777216 := by
    unfold intToFloat
    rw [f32Round_eval 24 8388608 (by norm_num [abs_of_pos]) (by norm_num [abs_of_pos])
      (by norm_num)
      (by have := roundHalfEven_tie_even (m := 8388608) (by norm_num)
          norm_num at this ⊢; exact this)]
    norm_num
  have hw : floatToInt (f32Mul (intToFloat 16777217) 1) = some 16777216 := by
    rw [hfl]
    unfold f32Mul
    have h := f32Round_intCast (n := 16777216) (by norm_num)
    have h2 := floatToInt_intCast (n := 16777216) (by norm_num [INT_MIN]) (by norm_num [INT_MAX])
    push_cast at h h2
    rw [mul_one, h, h2]
  have hval : scaledTarget 1 1 16777217 1 = some (16777216, 1) := by
    rw [scaledTarget_of_ratios (scaleRatios_square one_pos)]
    exact targetOf_eq hw (scaled_by_one (by norm_num))
  refine ⟨by norm_num, by norm_num, by norm_num [INT_MAX], hval, ?_⟩
  rw [hval]
  decide

/-- C7 as stated fails: for the natural size `0 x 1` the ratio applied on the zero
(width) axis is `0.0`, not `1.0`, and a request `10 x 10` gets the scaled width `0`. -/
theorem zero_axis_ratio_is_zero :
    scaleRatios 0 1 = some ⟨0, 1⟩ ∧ scaleRatios 0 1 ≠ some ⟨1, 1⟩ ∧
      scaledTarget 0 1 10 10 = some (0, 10) ∧ (0 : ℤ) ≠ 10 := by
  have hr : scaleRatios 0 1 = some ⟨0, 1⟩ := by
    rw [scaleRatios_portrait (by norm_num) (by norm_num), intToFloat_zero, zero_div,
      f32Round_zero]
  refine ⟨hr, ?_, ?_, by norm_num⟩
  · rw [hr]; decide
  · rw [scaledTarget_of_ratios hr]
    exact targetOf_eq (scaled_by_zero _) (scaled_by_one (by norm_num))

/-- C7, amended: when neither natural dimension is positive (in particular when both
are zero) no division is executed, both ratios are `1.0` and every request of magnitude
at most `2 ^ 24` is passed on unchanged on both axes. When exactly one natural dimension
is zero and the other is positive, the ratio on the zero axis is `0.0`, so for every
request the target on that axis is `0` whenever the target is defined; the other axis
keeps the ratio `1.0`, its target is the request passed through single precision, and it
equals the requested value when that has magnitude at most `2 ^ 24`. -/
theorem zero_dimension_ratios (w h : ℤ) :
    (w ≤ 0 ∧ h ≤ 0 →
      (ratioStep w h).divisors = [] ∧ scaleRatios w h = some ⟨1, 1⟩ ∧
      ∀ W H : ℤ, |W| ≤ 2 ^ 24 → |H| ≤ 2 ^ 24 → scaledTarget w h W H = some (W, H)) ∧
    (w = 0 ∧ 0 < h →
      scaleRatios w h = some ⟨0, 1⟩ ∧
      (∀ W H : ℤ, scaledTarget w h W H =
        (floatToInt (f32Round (intToFloat H * 1))).bind fun sh => some (0, sh)) ∧
      (∀ W H sw sh : ℤ, scaledTarget w h W H = some (sw, sh) → sw = 0) ∧
      ∀ W H : ℤ, |H| ≤ 2 ^ 24 → scaledTarget w h W H = some (0, H)) ∧
    (0 < w ∧ h = 0 →
      scaleRatios w h = some ⟨1, 0⟩ ∧
      (∀ W H : ℤ, scaledTarget w h W H =
        (floatToInt (f32Round (intToFloat W * 1))).bind fun sw => some (sw, 0)) ∧
      (∀ W H sw sh : ℤ, scaledTarget w h W H = some (sw, sh) → sh = 0) ∧
      ∀ W H : ℤ, |W| ≤ 2 ^ 24 → scaledTarget w h W H = some (W, 0)) := by
  refine ⟨?_, ?_, ?_⟩
  · rintro ⟨hw, hh⟩
    refine ⟨by rw [ratioStep_default hw hh], scaleRatios_default hw hh, ?_⟩
    intro W H hW hH
    rw [scaledTarget_of_ratios (scaleRatios_default hw hh)]
    exact targetOf_eq (scaled_by_one hW) (scaled_by_one hH)
  · rintro ⟨hw, hh⟩
    subst hw
    have hr : scaleRatios 0 h = some ⟨0, 1⟩ := by
      rw [scaleRatios_portrait hh hh, intToFloat_zero, zero_div, f32Round_zero]
    have hform : ∀ W H : ℤ, scaledTarget 0 h W H =
        (floatToInt (f32Round (intToFloat H * 1))).bind fun sh => some (0, sh) := by
      intro W H
      rw [scaledTarget_of_ratios hr]
      unfold targetOf
      rw [scaled_by_zero]
      rfl
    refine ⟨hr, hform, ?_, ?_⟩
    · intro W H sw sh hT
      rw [hform] at hT
      cases hc : floatToInt (f32Round (intToFloat H * 1)) with
      | none => rw [hc] at hT; simp at hT
      | some s =>
        rw [hc] at hT
        simp only [Option.some_bind, Option.some.injEq, Prod.mk.injEq] at hT
        exact hT.1.symm
    · intro W H hH
      rw [scaledTarget_of_ratios hr]
      exact targetOf_eq (scaled_by_zero _) (scaled_by_one hH)
  · rintro ⟨hw, hh⟩
    subst hh
    have hr : scaleRatios w 0 = some ⟨1, 0⟩ := by
      rw [scaleRatios_landscape hw.le hw, intToFloat_zero, zero_div, f32Round_zero]
    have hform : ∀ W H : ℤ, scaledTarget w 0 W H =
        (floatToInt (f32Round (intToFloat W * 1))).bind fun sw => some (sw, 0) := by
      intro W H
      rw [scaledTarget_of_ratios hr]
      unfold targetOf
      simp only [scaled_by_zero]
      rfl
    refine ⟨hr, hform, ?_, ?_⟩
    · intro W H sw sh hT
      rw [hform] at hT
      cases hc : floatToInt (f32Round (intToFloat W * 1)) with
      | none => rw [hc] at hT; simp at hT
      | some s =>
        rw [hc] at hT
        simp only [Option.some_bind, Option.some.injEq, Prod.mk.injEq] at hT
        exact hT.2.symm
    · intro W H hW
      rw [scaledTarget_of_ratios hr]
      exact targetOf_eq (scaled_by_one hW) (scaled_by_zero _)

/-- Witness of `zero_dimension_ratios`: the natural sizes `0 x 0`, `0 x 3` and `3 x 0`
with the request `10 x 20`, and `0 x 3` with the request `16777217 x 20`. -/
theorem zero_dimension_ratios_witness :
    scaledTarget 0 0 10 20 = some (10, 20) ∧ scaledTarget 0 3 10 20 = some (0, 20) ∧
      scaledTarget 3 0 10 20 = some (10, 0) ∧ scaledTarget 0 3 16777217 20 = some (0, 20) :=
  ⟨((zero_dimension_ratios 0 0).1 ⟨le_rfl, le_rfl⟩).2.2 10 20 (by norm_num) (by norm_num),
    ((zero_dimension_ratios 0 3).2.1 ⟨rfl, by norm_num⟩).2.2.2 10 20 (by norm_num),
    ((zero_dimension_ratios 3 0).2.2 ⟨by norm_num, rfl⟩).2.2.2 10 20 (by norm_num),
    ((zero_dimension_ratios 0 3).2.1 ⟨rfl, by norm_num⟩).2.2.2 16777217 20 (by norm_num)⟩

theorem intToFloat_two : intToFloat 2 = 2 := by
  simpa using intToFloat_exact (n := 2) (by norm_num)

/-- The natural size `4 x 2` gets the ratios `1.0` and `0.5`. -/
theorem scaleRatios_four_two : scaleRatios 4 2 = some ⟨1, 1 / 2⟩ := by
  have h4 : intToFloat 4 = 4 := by simpa using intToFloat_exact (n := 4) (by norm_num)
  have hhalf : f32Round (2 / 4) = 1 / 2 := by
    rw [f32Round_eval (-1) 8388608 (by norm_num [abs_of_pos]) (by norm_num [abs_of_pos])
      (by norm_num) (roundHalfEven_eq_of_lt (by norm_num) (by norm_num))]
    norm_num
  rw [scaleRatios_landscape (by norm_num) (by norm_num), intToFloat_two, h4, hhalf]

/-- C2 as stated fails: for the natural size `4 x 2` requested at `4 x 2` the scaled
target is `(4, 1)`, because the requested height is multiplied by the ratio `2 / 4`. -/
theorem natural_request_not_preserved :
    (0 : ℤ) < 4 ∧ (0 : ℤ) < 2 ∧ scaledTarget 4 2 4 2 = some (4, 1) ∧
      scaledTarget 4 2 4 2 ≠ some (4, 2) := by
  have hh : floatToInt (f32Mul (intToFloat 2) (1 / 2)) = some 1 := by
    unfold f32Mul
    rw [intToFloat_two]
    have e : (2 : ℚ) * (1 / 2) = 1 := by norm_num
    rw [e, f32Round_one]
    simpa using floatToInt_intCast (n := 1) (by norm_num [INT_MIN]) (by norm_num [INT_MAX])
  have hval : scaledTarget 4 2 4 2 = some (4, 1) := by
    rw [scaledTarget_of_ratios scaleRatios_four_two]
    exact targetOf_eq (scaled_by_one (by norm_num)) hh
  refine ⟨by norm_num, by norm_num, hval, ?_⟩
  rw [hval]
  decide

/-- C2, amended: for every natural size with `0 < w, h ≤ 2 ^ 24` requested at its own
size the scaled target is defined. The axis of the larger natural dimension gets exactly
its natural length; the other axis gets its natural length multiplied by the
single-precision ratio of the smaller to the larger dimension and rounded toward zero,
which lies in `[0, natural length]` and is strictly smaller than the natural length
when the size is not square. Hence the target equals `(w, h)` if and only if `w = h`. -/
theorem natural_request_target (w h : ℤ) (hw : 0 < w) (hw₂ : w ≤ 2 ^ 24) (hh : 0 < h)
    (hh₂ : h ≤ 2 ^ 24) :
    ∃ sw sh : ℤ, scaledTarget w h w h = some (sw, sh) ∧
      (h ≤ w → sw = w ∧
        floatToInt (f32Round (intToFloat h * f32Round (intToFloat h / intToFloat w))) =
          some sh) ∧
      (w < h → sh = h ∧
        floatToInt (f32Round (intToFloat w * f32Round (intToFloat w / intToFloat h))) =
          some sw) ∧
      0 ≤ sw ∧ sw ≤ w ∧ 0 ≤ sh ∧ sh ≤ h ∧
      (h < w → sh < h) ∧ (w < h → sw < w) ∧
      ((sw, sh) = (w, h) ↔ w = h) := by
  have haw : |w| ≤ 2 ^ 24 := by rw [abs_of_pos hw]; exact hw₂
  have hah : |h| ≤ 2 ^ 24 := by rw [abs_of_pos hh]; exact hh₂
  rcases lt_trichotomy h w with hlt | heq | hgt
  · -- landscape, not square
    obtain ⟨sh, hsh, hsh0, hshh⟩ := scaled_shorter_lt hh hlt hw₂
    refine ⟨w, sh, ?_, fun _ => ⟨rfl, hsh⟩, fun hc => absurd hc (by omega), hw.le, le_rfl,
      hsh0, hshh.le, fun _ => hshh, fun hc => absurd hc (by omega), ?_⟩
    · rw [scaledTarget_of_ratios (scaleRatios_landscape hlt.le hw)]
      exact targetOf_eq (scaled_by_one haw) hsh
    · constructor
      · intro he
        have := (Prod.mk.inj he).2
        omega
      · intro he; omega
  · -- square
    subst heq
    have hsq : scaledTarget h h h h = some (h, h) := by
      rw [scaledTarget_of_ratios (scaleRatios_square hh)]
      exact targetOf_eq (scaled_by_one hah) (scaled_by_one hah)
    have hone := scaled_by_one hah
    unfold f32Mul at hone
    refine ⟨h, h, hsq, fun _ => ⟨rfl, ?_⟩, fun hc => absurd hc (by omega), hh.le, le_rfl,
      hh.le, le_rfl, fun hc => absurd hc (by omega), fun hc => absurd hc (by omega),
      ⟨fun _ => rfl, fun _ => rfl⟩⟩
    rw [div_self (intToFloat_pos hh).ne', f32Round_one]
    exact hone
  · -- portrait
    obtain ⟨sw, hsw, hsw0, hsww⟩ := scaled_shorter_lt hw hgt hh₂
    refine ⟨sw, h, ?_, fun hc => absurd hc (by omega), fun _ => ⟨rfl, hsw⟩, hsw0, hsww.le,
      hh.le, le_rfl, fun hc => absurd hc (by omega), fun _ => hsww, ?_⟩
    · rw [scaledTarget_of_ratios (scaleRatios_portrait hgt hh)]
      exact targetOf_eq hsw (scaled_by_one hah)
    · constructor
      · intro he
        have := (Prod.mk.inj he).1
        omega
      · intro he; omega

/-- Witness of `natural_request_target` at the natural sizes `4 x 2` (the target is not
the natural size) and `6 x 6` (it is). -/
theorem natural_request_target_witness :
    (0 : ℤ) < 4 ∧ (4 : ℤ) ≤ 2 ^ 24 ∧ (0 : ℤ) < 2 ∧
      (∃ sw sh : ℤ, scaledTarget 4 2 4 2 = some (sw, sh) ∧ sw = 4 ∧ sh < 2 ∧
        (sw, sh) ≠ ((4 : ℤ), (2 : ℤ))) ∧
      scaledTarget 6 6 6 6 = some (6, 6) := by
  refine ⟨by norm_num, by norm_num, by norm_num, ?_, ?_⟩
  · obtain ⟨sw, sh, ht, hl, -, -, -, -, -, hlt, -, hiff⟩ :=
      natural_request_target 4 2 (by norm_num) (by norm_num) (by norm_num) (by norm_num)
    exact ⟨sw, sh, ht, (hl (by norm_num)).1, hlt (by norm_num),
      fun he => absurd (hiff.1 he) (by norm_num)⟩
  · obtain ⟨sw, sh, ht, -, -, -, -, -, -, -, -, hiff⟩ :=
      natural_request_target 6 6 (by norm_num) (by norm_num) (by norm_num) (by norm_num)
    rw [ht, hiff.2 rfl]

/-- C1 as stated fails when the formula is read in exact arithmetic: for the landscape
natural size `22 x 13` and the request `22 x 22`, rounding `22 x 13 / 22 = 13` toward
zero gives `13`, while the decoder target is `(22, 12)`: the single-precision quotient
`13 / 22` is rounded to `9913809 / 2 ^ 24` and its product with `22` lies below `13`. -/
theorem exact_formula_not_met :
    (22 : ℤ) ≥ 13 ∧ (22 : ℤ) > 0 ∧
      specScaledTarget 22 13 22 22 = some (22, 13) ∧
      scaledTarget 22 13 22 22 = some (22, 12) ∧
      scaledTarget 22 13 22 22 ≠ specScaledTarget 22 13 22 22 := by
  have h13 : intToFloat 13 = 13 := by simpa using intToFloat_exact (n := 13) (by norm_num)
  have h22 : intToFloat 22 = 22 := by simpa using intToFloat_exact (n := 22) (by norm_num)
  have hq : f32Round (13 / 22) = 9913809 / 16777216 := by
    rw [f32Round_eval (-1) 9913809 (by norm_num [abs_of_pos]) (by norm_num [abs_of_pos])
      (by norm_num) (roundHalfEven_eq_of_lt (by norm_num) (by norm_num))]
    norm_num
  have hp : f32Round (22 * (9913809 / 16777216)) = 13631487 / 1048576 := by
    rw [f32Round_eval 3 13631487 (by norm_num [abs_of_pos]) (by norm_num [abs_of_pos])
      (by norm_num) (roundHalfEven_eq_of_lt (by norm_num) (by norm_num))]
    norm_num
  have hr : scaleRatios 22 13 = some ⟨1, 9913809 / 16777216⟩ := by
    rw [scaleRatios_landscape (by norm_num) (by norm_num), h13, h22, hq]
  have hfloor : ⌊(13631487 / 1048576 : ℚ)⌋ = 12 :=
    Int.floor_eq_iff.2 ⟨by norm_num, by norm_num⟩
  have hh : floatToInt (f32Mul (intToFloat 22) (9913809 / 16777216)) = some 12 := by
    unfold f32Mul
    rw [h22, hp]
    have ht : truncToZero (13631487 / 1048576) = 12 := by
      unfold truncToZero
      rw [if_pos (by norm_num), hfloor]
    unfold floatToInt
    rw [ht, if_pos ⟨by unfold INT_MIN; norm_num, by unfold INT_MAX; norm_num⟩]
  have hval : scaledTarget 22 13 22 22 = some (22, 12) := by
    rw [scaledTarget_of_ratios hr]
    exact targetOf_eq (scaled_by_one (by norm_num)) hh
  have hspec : specScaledTarget 22 13 22 22 = some (22, 13) := by
    unfold specScaledTarget
    rw [if_pos (by norm_num)]
    have e1 : (((22 : ℤ) : ℚ)) * 1 = ((22 : ℤ) : ℚ) := by norm_num
    have e2 : (((22 : ℤ) : ℚ)) * ((((13 : ℤ) : ℚ)) / (((22 : ℤ) : ℚ))) = ((13 : ℤ) : ℚ) := by
      norm_num
    rw [e1, e2, truncToZero_intCast, truncToZero_intCast]
  refine ⟨by norm_num, by norm_num, hspec, hval, ?_⟩
  rw [hval, hspec]
  decide

/-- C1, amended: for every natural size and every request with `W, H > 0`, in the
landscape-or-square case (`w ≥ h`, `w > 0`) the ratios are `1.0` and the single-precision
quotient of `h` by `w`, in the portrait case (`w < h`, `h > 0`) the single-precision
quotient of `w` by `h` and `1.0`; the divisor is non-zero, and the target is the pair of
single-precision products of the converted requests with these ratios, each converted to
`int` by rounding toward zero. -/
theorem scaledTarget_single_precision (w h W H : ℤ) (hW : 0 < W) (hH : 0 < H) :
    (w ≥ h ∧ w > 0 →
      intToFloat w ≠ 0 ∧
      scaleRatios w h = some ⟨1, f32Round (intToFloat h / intToFloat w)⟩ ∧
      scaledTarget w h W H =
        (floatToInt (f32Round (intToFloat W * 1))).bind fun sw =>
          (floatToInt (f32Round
            (intToFloat H * f32Round (intToFloat h / intToFloat w)))).bind fun sh =>
            some (sw, sh)) ∧
    (w < h ∧ h > 0 →
      intToFloat h ≠ 0 ∧
      scaleRatios w h = some ⟨f32Round (intToFloat w / intToFloat h), 1⟩ ∧
      scaledTarget w h W H =
        (floatToInt (f32Round
          (intToFloat W * f32Round (intToFloat w / intToFloat h)))).bind fun sw =>
          (floatToInt (f32Round (intToFloat H * 1))).bind fun sh =>
            some (sw, sh)) := by
  constructor
  · rintro ⟨hwh, hw⟩
    refine ⟨(intToFloat_pos hw).ne', scaleRatios_landscape hwh hw, ?_⟩
    rw [scaledTarget_of_ratios (scaleRatios_landscape hwh hw)]
    rfl
  · rintro ⟨hwh, hh⟩
    refine ⟨(intToFloat_pos hh).ne', scaleRatios_portrait hwh hh, ?_⟩
    rw [scaledTarget_of_ratios (scaleRatios_portrait hwh hh)]
    rfl

/-- Witness of `scaledTarget_single_precision` at the landscape size `22 x 13` and the
portrait size `13 x 22`, request `22 x 22`. -/
theorem scaledTarget_single_precision_witness :
    (0 : ℤ) < 22 ∧
      scaleRatios 22 13 = some ⟨1, f32Round (intToFloat 13 / intToFloat 22)⟩ ∧
      scaleRatios 13 22 = some ⟨f32Round (intToFloat 13 / intToFloat 22), 1⟩ :=
  ⟨by norm_num,
    ((scaledTarget_single_precision 22 13 22 22 (by norm_num) (by norm_num)).1
      ⟨by norm_num, by norm_num⟩).2.1,
    ((scaledTarget_single_precision 13 22 22 22 (by norm_num) (by norm_num)).2
      ⟨by norm_num, by norm_num⟩).2.1⟩

/-! ## The five paths of `nativeDecodeBitmapScaled` -/

theorem path_probe_failure {world : World} {cached : Bool} {data : JObject} {W H : ℤ}
    (hp : (probeOf world data).1 ≠ .VP8_STATUS_OK) :
    nativeDecodeBitmapScaled world cached data W H =
      ⟨prologueOf world data ++ [warningOf "GetFeatures", releaseOf world data], none,
        cached⟩ := by
  unfold probeOf at hp
  simp [nativeDecodeBitmapScaled, hp, prologueOf, warningOf, releaseOf]

theorem path_init_failure {world : World} {cached : Bool} {data : JObject} {W H : ℤ}
    (hp : (probeOf world data).1 = .VP8_STATUS_OK) (hi : world.initDecoderConfig = false) :
    nativeDecodeBitmapScaled world cached data W H =
      ⟨prologueOf world data ++
        [.webPInitDecoderConfig, warningOf "Init decoder config", releaseOf world data],
        none, cached⟩ := by
  unfold probeOf at hp
  simp [nativeDecodeBitmapScaled, hp, hi, prologueOf, warningOf, releaseOf]

theorem path_decode_failure {world : World} {cached : Bool} {data : JObject} {W H : ℤ}
    (hp : (probeOf world data).1 = .VP8_STATUS_OK) (hi : world.initDecoderConfig = true)
    (hd : (decodedOf world data W H).1 ≠ .VP8_STATUS_OK) :
    nativeDecodeBitmapScaled world cached data W H =
      ⟨prologueOf world data ++
        [.webPInitDecoderConfig,
          .webPDecode (world.byteArrayElements data) (world.arrayLength data)
            (optionsOf world data W H),
          warningOf "WebPDecode", releaseOf world data],
        none, cached⟩ := by
  unfold decodedOf optionsOf probeOf at hd
  unfold probeOf at hp
  simp [nativeDecodeBitmapScaled, hp, hi, hd, prologueOf, warningOf, releaseOf, optionsOf,
    probeOf]

theorem path_empty_result {world : World} {cached : Bool} {data : JObject} {W H : ℤ}
    (hp : (probeOf world data).1 = .VP8_STATUS_OK) (hi : world.initDecoderConfig = true)
    (hd : (decodedOf world data W H).1 = .VP8_STATUS_OK)
    (hn : (decodedOf world data W H).2.rgba = none) :
    nativeDecodeBitmapScaled world cached data W H =
      ⟨prologueOf world data ++
        [.webPInitDecoderConfig,
          .webPDecode (world.byteArrayElements data) (world.arrayLength data)
            (optionsOf world data W H),
          .webPFree none, releaseOf world data],
        none, cached⟩ := by
  unfold decodedOf optionsOf probeOf at hd hn
  unfold probeOf at hp
  simp [nativeDecodeBitmapScaled, hp, hi, hd, hn, prologueOf, releaseOf, optionsOf, probeOf]

theorem path_bitmap {world : World} {cached : Bool} {data : JObject} {W H : ℤ} {p : Ptr}
    (hp : (probeOf world data).1 = .VP8_STATUS_OK) (hi : world.initDecoderConfig = true)
    (hd : (decodedOf world data W H).1 = .VP8_STATUS_OK)
    (hn : (decodedOf world data W H).2.rgba = some p) :
    nativeDecodeBitmapScaled world cached data W H =
      ⟨prologueOf world data ++
        [.webPInitDecoderConfig,
          .webPDecode (world.byteArrayElements data) (world.arrayLength data)
            (optionsOf world data W H)] ++
        (createBitmap world cached (decodedOf world data W H).2.width
          (decodedOf world data W H).2.height p).1 ++
        [.webPFree (some p), releaseOf world data],
        (createBitmap world cached (decodedOf world data W H).2.width
          (decodedOf world data W H).2.height p).2, true⟩ := by
  unfold decodedOf optionsOf probeOf at hd hn ⊢
  unfold probeOf at hp
  simp [nativeDecodeBitmapScaled, hp, hi, hd, hn, prologueOf, releaseOf]

theorem path_cases (world : World) (data : JObject) (W H : ℤ) :
    (probeOf world data).1 ≠ .VP8_STATUS_OK ∨
    ((probeOf world data).1 = .VP8_STATUS_OK ∧ world.initDecoderConfig = false) ∨
    ((probeOf world data).1 = .VP8_STATUS_OK ∧ world.initDecoderConfig = true ∧
      (decodedOf world data W H).1 ≠ .VP8_STATUS_OK) ∨
    ((probeOf world data).1 = .VP8_STATUS_OK ∧ world.initDecoderConfig = true ∧
      (decodedOf world data W H).1 = .VP8_STATUS_OK ∧
      (decodedOf world data W H).2.rgba = none) ∨
    (∃ p : Ptr, (probeOf world data).1 = .VP8_STATUS_OK ∧ world.initDecoderConfig = true ∧
      (decodedOf world data W H).1 = .VP8_STATUS_OK ∧
      (decodedOf world data W H).2.rgba = some p) := by
  by_cases hp : (probeOf world data).1 = .VP8_STATUS_OK
  · by_cases hi : world.initDecoderConfig = true
    · by_cases hd : (decodedOf world data W H).1 = .VP8_STATUS_OK
      · rcases Option.eq_none_or_eq_some (decodedOf world data W H).2.rgba with hn | ⟨p, hn⟩
        · exact Or.inr (Or.inr (Or.inr (Or.inl ⟨hp, hi, hd, hn⟩)))
        · exact Or.inr (Or.inr (Or.inr (Or.inr ⟨p, hp, hi, hd, hn⟩)))
      · exact Or.inr (Or.inr (Or.inl ⟨hp, hi, hd⟩))
    · exact Or.inr (Or.inl ⟨hp, by simpa using hi⟩)
  · exact Or.inl hp

/-! ## Claims about resources, failures and the bitmap -/

/-- C3: on every path of `nativeDecodeBitmapScaled` the pinned view of the input array is
acquired exactly once, as the first call, and released exactly once, on the same array
and pointer, as the last call before returning; nothing, and in particular no codec call
reading the buffer, follows the release. -/
theorem pinned_input_released_once (world : World) (cached : Bool) (data : JObject)
    (W H : ℤ) :
    ∃ middle : List Event,
      (nativeDecodeBitmapScaled world cached data W H).trace =
        .getByteArrayElements data (world.byteArrayElements data) :: middle ++
          [.releaseByteArrayElements data (world.byteArrayElements data) 0] ∧
      middle.countP Event.isAcquire = 0 ∧ middle.countP Event.isRelease = 0 ∧
      (nativeDecodeBitmapScaled world cached data W H).trace.countP Event.isAcquire = 1 ∧
      (nativeDecodeBitmapScaled world cached data W H).trace.countP Event.isRelease = 1 ∧
      afterRelease (nativeDecodeBitmapScaled world cached data W H).trace = [] ∧
      (afterRelease (nativeDecodeBitmapScaled world cached data W H).trace).countP
        Event.readsInput = 0 := by
  rcases path_cases world data W H with
    hp | ⟨hp, hi⟩ | ⟨hp, hi, hd⟩ | ⟨hp, hi, hd, hn⟩ | ⟨p, hp, hi, hd, hn⟩
  · rw [path_probe_failure hp]
    exact ⟨[.getArrayLength data, .webPGetFeatures _ _, warningOf "GetFeatures"],
      rfl, rfl, rfl, rfl, rfl, rfl, rfl⟩
  · rw [path_init_failure hp hi]
    exact ⟨[.getArrayLength data, .webPGetFeatures _ _, .webPInitDecoderConfig,
      warningOf "Init decoder config"], rfl, rfl, rfl, rfl, rfl, rfl, rfl⟩
  · rw [path_decode_failure hp hi hd]
    exact ⟨[.getArrayLength data, .webPGetFeatures _ _, .webPInitDecoderConfig,
      .webPDecode _ _ _, warningOf "WebPDecode"], rfl, rfl, rfl, rfl, rfl, rfl, rfl⟩
  · rw [path_empty_result hp hi hd hn]
    exact ⟨[.getArrayLength data, .webPGetFeatures _ _, .webPInitDecoderConfig,
      .webPDecode _ _ _, .webPFree none], rfl, rfl, rfl, rfl, rfl, rfl, rfl⟩
  · rw [path_bitmap hp hi hd hn]
    refine ⟨[.getArrayLength data,
      .webPGetFeatures (world.byteArrayElements data) (world.arrayLength data),
      .webPInitDecoderConfig,
      .webPDecode (world.byteArrayElements data) (world.arrayLength data)
        (optionsOf world data W H)] ++
      (createBitmap world cached (decodedOf world data W H).2.width
        (decodedOf world data W H).2.height p).1 ++ [.webPFree (some p)], ?_⟩
    cases cached <;> exact ⟨rfl, rfl, rfl, rfl, rfl, rfl, rfl⟩

/-- C4: each of the three failures (probe status not OK; decoder configuration not
initialised; decode status not OK) makes the call return null, write exactly one log
entry, of warning level, and construct no bitmap; after a probe failure neither the
configuration initialisation nor the decode is called, and after an initialisation
failure the decode is not called. -/
theorem failures_return_null_with_one_warning (world : World) (cached : Bool)
    (data : JObject) (W H : ℤ) :
    ((probeOf world data).1 ≠ .VP8_STATUS_OK →
      (nativeDecodeBitmapScaled world cached data W H).result = none ∧
      (nativeDecodeBitmapScaled world cached data W H).trace.countP Event.isLog = 1 ∧
      (nativeDecodeBitmapScaled world cached data W H).trace.countP Event.isWarning = 1 ∧
      (nativeDecodeBitmapScaled world cached data W H).trace.countP Event.isBitmapWork = 0 ∧
      (nativeDecodeBitmapScaled world cached data W H).trace.countP Event.isInit = 0 ∧
      (nativeDecodeBitmapScaled world cached data W H).trace.countP Event.isDecode = 0) ∧
    ((probeOf world data).1 = .VP8_STATUS_OK ∧ world.initDecoderConfig = false →
      (nativeDecodeBitmapScaled world cached data W H).result = none ∧
      (nativeDecodeBitmapScaled world cached data W H).trace.countP Event.isLog = 1 ∧
      (nativeDecodeBitmapScaled world cached data W H).trace.countP Event.isWarning = 1 ∧
      (nativeDecodeBitmapScaled world cached data W H).trace.countP Event.isBitmapWork = 0 ∧
      (nativeDecodeBitmapScaled world cached data W H).trace.countP Event.isDecode = 0) ∧
    ((probeOf world data).1 = .VP8_STATUS_OK ∧ world.initDecoderConfig = true ∧
        (decodedOf world data W H).1 ≠ .VP8_STATUS_OK →
      (nativeDecodeBitmapScaled world cached data W H).result = none ∧
      (nativeDecodeBitmapScaled world cached data W H).trace.countP Event.isLog = 1 ∧
      (nativeDecodeBitmapScaled world cached data W H).trace.countP Event.isWarning = 1 ∧
      (nativeDecodeBitmapScaled world cached data W H).trace.countP Event.isBitmapWork = 0) := by
  refine ⟨?_, ?_, ?_⟩
  · intro hp
    rw [path_probe_failure hp]
    exact ⟨rfl, rfl, rfl, rfl, rfl, rfl⟩
  · rintro ⟨hp, hi⟩
    rw [path_init_failure hp hi]
    exact ⟨rfl, rfl, rfl, rfl, rfl⟩
  · rintro ⟨hp, hi, hd⟩
    rw [path_decode_failure hp hi hd]
    exact ⟨rfl, rfl, rfl, rfl⟩

/-- Witness of `failures_return_null_with_one_warning`: a probe answering a bitstream
error, a failing initialisation, and a decode answering a bitstream error. -/
theorem failures_return_null_with_one_warning_witness :
    (nativeDecodeBitmapScaled
        (sampleWorld .VP8_STATUS_BITSTREAM_ERROR true .VP8_STATUS_OK ⟨4, 2, some 1⟩)
        false 0 4 2).result = none ∧
    (nativeDecodeBitmapScaled
        (sampleWorld .VP8_STATUS_OK false .VP8_STATUS_OK ⟨4, 2, some 1⟩)
        false 0 4 2).result = none ∧
    (nativeDecodeBitmapScaled
        (sampleWorld .VP8_STATUS_OK true .VP8_STATUS_BITSTREAM_ERROR ⟨4, 2, some 1⟩)
        false 0 4 2).result = none :=
  ⟨((failures_return_null_with_one_warning
        (sampleWorld .VP8_STATUS_BITSTREAM_ERROR true .VP8_STATUS_OK ⟨4, 2, some 1⟩)
        false 0 4 2).1 (by decide)).1,
    ((failures_return_null_with_one_warning
        (sampleWorld .VP8_STATUS_OK false .VP8_STATUS_OK ⟨4, 2, some 1⟩)
        false 0 4 2).2.1 ⟨rfl, rfl⟩).1,
    ((failures_return_null_with_one_warning
        (sampleWorld .VP8_STATUS_OK true .VP8_STATUS_BITSTREAM_ERROR ⟨4, 2, some 1⟩)
        false 0 4 2).2.2 ⟨rfl, rfl, by decide⟩).1⟩

/-- C5: when probe, initialisation and decode succeed and the output pixel pointer is
null, the call returns null, makes no call of `createBitmap` and writes no log entry. -/
theorem empty_result_is_silent (world : World) (cached : Bool) (data : JObject) (W H : ℤ)
    (hp : (probeOf world data).1 = .VP8_STATUS_OK) (hi : world.initDecoderConfig = true)
    (hd : (decodedOf world data W H).1 = .VP8_STATUS_OK)
    (hn : (decodedOf world data W H).2.rgba = none) :
    (nativeDecodeBitmapScaled world cached data W H).result = none ∧
    (nativeDecodeBitmapScaled world cached data W H).trace.countP Event.isBitmapWork = 0 ∧
    (nativeDecodeBitmapScaled world cached data W H).trace.countP Event.isLog = 0 := by
  rw [path_empty_result hp hi hd hn]
  exact ⟨rfl, rfl, rfl⟩

/-- Witness of `empty_result_is_silent`: every stage succeeds and the decoder leaves a
null pixel pointer. -/
theorem empty_result_is_silent_witness :
    (nativeDecodeBitmapScaled
        (sampleWorld .VP8_STATUS_OK true .VP8_STATUS_OK ⟨0, 0, none⟩) false 0 4 2).result
      = none ∧
    (nativeDecodeBitmapScaled
        (sampleWorld .VP8_STATUS_OK true .VP8_STATUS_OK ⟨0, 0, none⟩) false 0 4 2).trace.countP
      Event.isLog = 0 :=
  have h := empty_result_is_silent
    (sampleWorld .VP8_STATUS_OK true .VP8_STATUS_OK ⟨0, 0, none⟩) false 0 4 2 rfl rfl rfl rfl
  ⟨h.1, h.2.2⟩

/-- C6: on every path on which the decode call returns success, the call ends with one
`WebPFree` of the output pixel pointer followed by the release of the pinned input; no
other `WebPFree` is made, and when the pixel pointer is not null all calls of
`createBitmap` precede the `WebPFree`. -/
theorem pixel_buffer_freed_once (world : World) (cached : Bool) (data : JObject) (W H : ℤ)
    (hp : (probeOf world data).1 = .VP8_STATUS_OK) (hi : world.initDecoderConfig = true)
    (hd : (decodedOf world data W H).1 = .VP8_STATUS_OK) :
    ∃ before : List Event,
      (nativeDecodeBitmapScaled world cached data W H).trace =
        before ++ [.webPFree (decodedOf world data W H).2.rgba,
          .releaseByteArrayElements data (world.byteArrayElements data) 0] ∧
      before.countP Event.isFree = 0 ∧
      (nativeDecodeBitmapScaled world cached data W H).trace.countP Event.isFree = 1 ∧
      ∀ p : Ptr, (decodedOf world data W H).2.rgba = some p →
        (createBitmap world cached (decodedOf world data W H).2.width
          (decodedOf world data W H).2.height p).1 <:+ before ∧
        (nativeDecodeBitmapScaled world cached data W H).trace.countP (Event.readsPixels p) =
          before.countP (Event.readsPixels p) := by
  rcases Option.eq_none_or_eq_some (decodedOf world data W H).2.rgba with hn | ⟨p, hn⟩
  · rw [path_empty_result hp hi hd hn, hn]
    refine ⟨prologueOf world data ++ [Event.webPInitDecoderConfig,
      Event.webPDecode (world.byteArrayElements data) (world.arrayLength data)
        (optionsOf world data W H)], rfl, rfl, rfl, ?_⟩
    intro p hp'
    exact absurd hp' (by simp)
  · rw [path_bitmap hp hi hd hn, hn]
    refine ⟨prologueOf world data ++ [Event.webPInitDecoderConfig,
      Event.webPDecode (world.byteArrayElements data) (world.arrayLength data)
        (optionsOf world data W H)] ++
      (createBitmap world cached (decodedOf world data W H).2.width
        (decodedOf world data W H).2.height p).1, ?_, ?_, ?_, ?_⟩
    · simp [releaseOf]
    · cases cached <;> rfl
    · cases cached <;> rfl
    · intro q hq
      obtain rfl : p = q := Option.some.inj hq
      refine ⟨List.suffix_append _ _, ?_⟩
      simp [List.countP_append, Event.readsPixels, releaseOf]

/-- Witness of `pixel_buffer_freed_once`: every stage succeeds and the decoder returns a
`4 x 2` image at address `1`. -/
theorem pixel_buffer_freed_once_witness :
    (nativeDecodeBitmapScaled
        (sampleWorld .VP8_STATUS_OK true .VP8_STATUS_OK ⟨4, 2, some 1⟩) false 0 4 2).trace.countP
      Event.isFree = 1 := by
  obtain ⟨before, -, -, h, -⟩ := pixel_buffer_freed_once
    (sampleWorld .VP8_STATUS_OK true .VP8_STATUS_OK ⟨4, 2, some 1⟩) false 0 4 2 rfl rfl rfl
  exact h

theorem wrapInt32_of_mem {x : ℤ} (h₁ : INT_MIN ≤ x) (h₂ : x ≤ INT_MAX) : wrapInt32 x = x := by
  unfold INT_MIN at h₁
  unfold INT_MAX at h₂
  unfold wrapInt32
  omega

/-- A fresh array of `n` elements filled from index `0` with `n` words holds exactly the
first `n` words stored at the source. -/
theorem fill_new_array (world : World) {n : ℤ} (hn : 0 ≤ n) (p : Ptr) :
    setIntArrayRegion world (newIntArray n) 0 n p =
      some ((List.range n.toNat).map (world.word32 p)) := by
  unfold newIntArray setIntArrayRegion
  rw [if_pos hn]
  simp [hn]

theorem createBitmap_eq (world : World) (cached : Bool) {w h : ℤ} (p : Ptr)
    (h₀ : 0 ≤ w * h) (h₁ : w * h ≤ INT_MAX) :
    createBitmap world cached w h p =
      ((if cached then [] else resolveHandles) ++
        [ .newIntArray (w * h),
          .setIntArrayRegion 0 (w * h) p,
          .getStaticObjectField "android/graphics/Bitmap$Config" "ARGB_8888",
          .callCreateBitmap (some ((List.range (w * h).toNat).map (world.word32 p))) 0 w w h
            "ARGB_8888",
          .deleteLocalRef ],
        world.bitmapCreate (some ((List.range (w * h).toNat).map (world.word32 p))) 0 w w h
          "ARGB_8888") := by
  have hwrap : wrapInt32 (w * h) = w * h :=
    wrapInt32_of_mem (by unfold INT_MIN; omega) h₁
  unfold createBitmap
  simp only [hwrap, fill_new_array world h₀ p]

/-- C9 as stated fails when the pixel count is not an `int`: for the request
`65536 x 65536` of a `4 x 2` image the decoder is configured for `65536 x 32768`; when it
answers success with that size and a non-null pixel pointer, the 32-bit product
`width * height` is `-2147483648`, so no array of `65536 x 32768` elements is built and
`Bitmap.createBitmap` is called with a null array. -/
theorem pixel_count_wraps :
    scaledTarget 4 2 65536 65536 = some (65536, 32768) ∧
    (65536 : ℤ) * 32768 = 2147483648 ∧
    Event.newIntArray (-2147483648) ∈
      (nativeDecodeBitmapScaled
        (sampleWorld .VP8_STATUS_OK true .VP8_STATUS_OK ⟨65536, 32768, some 1⟩)
        true 0 65536 65536).trace ∧
    Event.callCreateBitmap none 0 65536 65536 32768 "ARGB_8888" ∈
      (nativeDecodeBitmapScaled
        (sampleWorld .VP8_STATUS_OK true .VP8_STATUS_OK ⟨65536, 32768, some 1⟩)
        true 0 65536 65536).trace := by
  have hc : createBitmap
      (sampleWorld .VP8_STATUS_OK true .VP8_STATUS_OK ⟨65536, 32768, some 1⟩) true
      65536 32768 1 =
      ([ .newIntArray (-2147483648), .setIntArrayRegion 0 (-2147483648) 1,
          .getStaticObjectField "android/graphics/Bitmap$Config" "ARGB_8888",
          .callCreateBitmap none 0 65536 65536 32768 "ARGB_8888", .deleteLocalRef ],
        some 7) := by
    have hwrap : wrapInt32 (65536 * 32768) = -2147483648 := by unfold wrapInt32; norm_num
    have hnull : newIntArray (-2147483648) = none := by unfold newIntArray; norm_num
    unfold createBitmap
    simp only [hwrap, hnull, setIntArrayRegion]
    rfl
  have hpath := @path_bitmap
    (sampleWorld .VP8_STATUS_OK true .VP8_STATUS_OK ⟨65536, 32768, some 1⟩)
    true 0 65536 65536 1 rfl rfl rfl rfl
  have hdec : (decodedOf
      (sampleWorld .VP8_STATUS_OK true .VP8_STATUS_OK ⟨65536, 32768, some 1⟩) 0 65536 65536).2
      = ⟨65536, 32768, some 1⟩ := rfl
  rw [hdec] at hpath
  simp only [hc] at hpath
  rw [hpath]
  refine ⟨?_, by norm_num, by simp, by simp⟩
  have hh : floatToInt (f32Mul (intToFloat 65536) (1 / 2)) = some 32768 := by
    unfold f32Mul
    have h1 : intToFloat 65536 = 65536 := by
      simpa using intToFloat_exact (n := 65536) (by norm_num)
    have h2 : f32Round 32768 = 32768 := by
      simpa using f32Round_intCast (n := 32768) (by norm_num)
    have e : (65536 : ℚ) * (1 / 2) = 32768 := by norm_num
    rw [h1, e, h2]
    simpa using floatToInt_intCast (n := 32768) (by norm_num [INT_MIN]) (by norm_num [INT_MAX])
  rw [scaledTarget_of_ratios scaleRatios_four_two]
  exact targetOf_eq (scaled_by_one (by norm_num)) hh

/-- C9, amended: when decode succeeds with a non-null pixel pointer and a decoded size
`(w, h)` whose pixel count `w x h` is an `int` (`0 ≤ w x h ≤ INT_MAX`), the call makes
exactly one call of `Bitmap.createBitmap`, with an array of exactly `w x h` elements
that are the first `w x h` 32-bit words of the decoded buffer, offset `0`, stride `w`,
width `w`, height `h` and the configuration `ARGB_8888`, and returns the handle that
call answers. -/
theorem bitmap_built_from_pixels (world : World) (cached : Bool) (data : JObject) (W H : ℤ)
    (p : Ptr)
    (hp : (probeOf world data).1 = .VP8_STATUS_OK) (hi : world.initDecoderConfig = true)
    (hd : (decodedOf world data W H).1 = .VP8_STATUS_OK)
    (hn : (decodedOf world data W H).2.rgba = some p)
    (h₀ : 0 ≤ (decodedOf world data W H).2.width * (decodedOf world data W H).2.height)
    (h₁ : (decodedOf world data W H).2.width * (decodedOf world data W H).2.height ≤ INT_MAX) :
    (nativeDecodeBitmapScaled world cached data W H).trace.countP Event.isCreateBitmapCall = 1 ∧
    Event.callCreateBitmap
        (some ((List.range ((decodedOf world data W H).2.width *
          (decodedOf world data W H).2.height).toNat).map (world.word32 p)))
        0 (decodedOf world data W H).2.width (decodedOf world data W H).2.width
        (decodedOf world data W H).2.height "ARGB_8888" ∈
      (nativeDecodeBitmapScaled world cached data W H).trace ∧
    (((List.range ((decodedOf world data W H).2.width *
          (decodedOf world data W H).2.height).toNat).map (world.word32 p)).length : ℤ) =
      (decodedOf world data W H).2.width * (decodedOf world data W H).2.height ∧
    (nativeDecodeBitmapScaled world cached data W H).result =
      world.bitmapCreate
        (some ((List.range ((decodedOf world data W H).2.width *
          (decodedOf world data W H).2.height).toNat).map (world.word32 p)))
        0 (decodedOf world data W H).2.width (decodedOf world data W H).2.width
        (decodedOf world data W H).2.height "ARGB_8888" := by
  rw [path_bitmap hp hi hd hn, createBitmap_eq world cached p h₀ h₁]
  refine ⟨?_, ?_, ?_, rfl⟩
  · cases cached <;> rfl
  · simp
  · simp [h₀]

/-- Witness of `bitmap_built_from_pixels`: every stage succeeds and the decoder returns
a `4 x 2` image at address `1`; the bridge returns the handle `7` of the platform. -/
theorem bitmap_built_from_pixels_witness :
    (nativeDecodeBitmapScaled
        (sampleWorld .VP8_STATUS_OK true .VP8_STATUS_OK ⟨4, 2, some 1⟩) false 0 4 2).result
      = some 7 ∧
    Event.callCreateBitmap (some [0, 1, 2, 3, 4, 5, 6, 7]) 0 4 4 2 "ARGB_8888" ∈
      (nativeDecodeBitmapScaled
        (sampleWorld .VP8_STATUS_OK true .VP8_STATUS_OK ⟨4, 2, some 1⟩) false 0 4 2).trace := by
  have h := bitmap_built_from_pixels
    (sampleWorld .VP8_STATUS_OK true .VP8_STATUS_OK ⟨4, 2, some 1⟩) false 0 4 2 1
    rfl rfl rfl rfl (by decide) (by decide)
  exact ⟨h.2.2.2, h.2.1⟩

end SignalWebp
